import Mathlib

/-!
Verification development for the Ollama model manager's repository engine
(`ollama_cli.py`; the same `OllamaModelManager` class is duplicated verbatim in
`ollama_gui.py` and `ollama_side6.py`).  The filesystem regions the engine
touches (the blobs directory, the `library` manifest tree, the ephemeral
working areas, the output archive) are modelled as association lists, file
contents as an inductive `Content`, and the progress callback as an optional
`Nat → Bool` giving the continue-flag returned at the n-th invocation.
Machine-level behaviour that the code exhibits is kept: Python's
`ZeroDivisionError` when a progress percentage is computed with a zero total
is an explicit `crash` outcome, and an unexpected filesystem error while the
tar archive is written (the `except` branch of `export_model`) is modelled by
the boolean `tarOk` parameter.
-/

/-- Characters of the scheme tag tested by `digest.startswith("sha256:")`. -/
def shaTag : List Char := "sha256:".toList

/-- The source's `digest.startswith("sha256:")` test. -/
def startsSha (d : String) : Bool := d.toList.take 7 == shaTag

/-- The source's `digest.replace(":", "-")`: every colon becomes a hyphen,
producing the blob filename for a digest. -/
def digestFilename (d : String) : String :=
  String.mk (d.toList.map fun c => if c == ':' then '-' else c)

/-- One element of the manifest's `layers` array; absent JSON keys default to
`""` and `0` exactly as `layer.get("digest", "")` / `layer.get("size", 0)` do. -/
structure Layer where
  digest : String
  size : Nat
deriving DecidableEq

/-- The manifest's `config` object (`digest`, `size` with the same defaults). -/
structure ConfigRef where
  digest : String
  size : Nat
deriving DecidableEq

/-- A parsed manifest document: `{config: {digest, size}, layers: [...]}`. -/
structure Manifest where
  config : ConfigRef
  layers : List Layer
deriving DecidableEq

/-- File contents.  `metaJson` is the shape `export_model` writes to
`metadata.json` (`model_name`, `parameter_size`; the `original_path` field is
never read back by any operation and is omitted).  `manifestJson` is a byte
string that parses as a manifest document; `bytes` is any other content.
JSON (de)serialisation is modelled as the injective pairing of these
constructors. -/
inductive Content where
  | bytes (b : List Nat)
  | metaJson (name tag : Option String)
  | manifestJson (m : Manifest)
deriving DecidableEq

/-- `json.load` on a manifest file: succeeds only on manifest documents. -/
def parseManifest : Content → Option Manifest
  | .manifestJson m => some m
  | _ => none

/-- `json.load` on a `metadata.json` file followed by
`metadata.get("model_name")` / `metadata.get("parameter_size")`. -/
def parseMeta : Content → Option (Option String × Option String)
  | .metaJson n t => some (n, t)
  | _ => none

/-- A flat directory of files: filename to content, first binding wins. -/
abbrev FileMap := List (String × Content)

/-- Association-list lookup (the filesystem's name resolution). -/
def alGet {α : Type} : List (String × α) → String → Option α
  | [], _ => none
  | p :: m, k => if k = p.1 then some p.2 else alGet m k

/-- Create-or-overwrite a file (`shutil.copy2` / `open(..., 'w')` semantics). -/
def alSet {α : Type} (m : List (String × α)) (k : String) (v : α) :
    List (String × α) :=
  if (alGet m k).isSome then m.map fun p => if p.1 = k then (k, v) else p
  else m ++ [(k, v)]

/-- Remove a file (`Path.unlink` semantics; directory names are unique, so
removing the first binding is removal). -/
def alErase {α : Type} : List (String × α) → String → List (String × α)
  | [], _ => []
  | p :: m, k => if p.1 = k then m else p :: alErase m k

/-- Write a batch of files in order. -/
def alSetAll {α : Type} (m : List (String × α)) (ps : List (String × α)) :
    List (String × α) :=
  ps.foldl (fun t kv => alSet t kv.1 kv.2) m

/-- `total_size = Σ layer.size + config.size` computed by `export_model`. -/
def totalSize (m : Manifest) : Nat :=
  (m.layers.map (·.size)).sum + m.config.size

/-- Terminal outcome of `export_model`.  The string returns of the source are
mapped to kinds: `None ↦ ok`, `"Error reading manifest" ↦ parseError`,
`"Error: Blob file ... not found" ↦ blobMissing`, `"Operation cancelled by
user" ↦ cancelled`, `"Error creating archive" ↦ ioError`; `crash` is an
uncaught `ZeroDivisionError` from `(current_size / total_size) * 100`. -/
inductive ExOutcome where
  | ok
  | parseError
  | blobMissing (fn : String)
  | cancelled
  | ioError
  | crash
deriving DecidableEq

/-- One progress-callback invocation made by `export_model`, in order.
`copyBlob`/`copiedBlob` are the reports made before and after each blob copy
(with the computed percentage); `creatingArchive` and `addingFile` report the
constant 95; `complete` reports the constant 100 and its continue-flag is
ignored by the source. -/
inductive ExCheck where
  | copyBlob (fn : String) (pct : Rat)
  | copiedBlob (fn : String) (pct : Rat)
  | creatingArchive
  | addingFile (fn : String)
  | complete
deriving DecidableEq

/-- Result of an export run: outcome, surviving temp directory (`none` means
removed / never created), the output archive's members in the order written
(`none` means no file at the output path), and the callback invocations. -/
structure ExportResult where
  out : ExOutcome
  temp : Option FileMap
  output : Option (List (String × Content))
  trace : List ExCheck
deriving DecidableEq

/-- Mutable state of the blob-copying loops of `export_model`: the temp
directory, `blob_files`, `current_size`, the number of callback invocations
made so far, and the invocations themselves. -/
structure ExSt where
  temp : FileMap
  blobFiles : List String
  current : Nat
  k : Nat
  trace : List ExCheck
deriving DecidableEq

/-- The `for i, layer in enumerate(manifest.get("layers", []))` loop of
`export_model` (lines 157-184): skip non-`sha256:` digests; fail with
`blobMissing` (leaving the temp directory in place — the source has no
cleanup on that branch) when the blob file is absent; otherwise report,
copy, update `current_size`, report again. -/
def copyLayers (store : FileMap) (cb : Option (Nat → Bool)) (total : Nat) :
    List Layer → ExSt → Sum ExportResult ExSt
  | [], st => .inr st
  | l :: ls, st =>
    if startsSha l.digest then
      let fn := digestFilename l.digest
      match alGet store fn with
      | some c =>
        match cb with
        | none =>
          copyLayers store none total ls
            { st with temp := alSet st.temp fn c,
                      blobFiles := st.blobFiles ++ [fn],
                      current := st.current + l.size }
        | some f =>
          if total = 0 then
            .inl { out := .crash, temp := some st.temp, output := none,
                   trace := st.trace }
          else
            let pct1 : Rat := (st.current : Rat) * 100 / (total : Rat)
            let tr1 := st.trace ++ [ExCheck.copyBlob fn pct1]
            if f st.k then
              let cur2 := st.current + l.size
              let pct2 : Rat := (cur2 : Rat) * 100 / (total : Rat)
              let tr2 := tr1 ++ [ExCheck.copiedBlob fn pct2]
              if f (st.k + 1) then
                copyLayers store (some f) total ls
                  { temp := alSet st.temp fn c,
                    blobFiles := st.blobFiles ++ [fn],
                    current := cur2, k := st.k + 2, trace := tr2 }
              else
                .inl { out := .cancelled, temp := none, output := none,
                       trace := tr2 }
            else
              .inl { out := .cancelled, temp := none, output := none,
                     trace := tr1 }
      | none =>
        .inl { out := .blobMissing fn, temp := some st.temp, output := none,
               trace := st.trace }
    else copyLayers store cb total ls st

/-- The config-blob step of `export_model` (lines 186-208).  Note the source
has no `else` for a missing config blob: it is silently skipped. -/
def copyConfig (store : FileMap) (cb : Option (Nat → Bool)) (total : Nat)
    (cfg : ConfigRef) (st : ExSt) : Sum ExportResult ExSt :=
  if startsSha cfg.digest then
    let fn := digestFilename cfg.digest
    match alGet store fn with
    | some c =>
      match cb with
      | none =>
        .inr { st with temp := alSet st.temp fn c,
                       blobFiles := st.blobFiles ++ [fn],
                       current := st.current + cfg.size }
      | some f =>
        if total = 0 then
          .inl { out := .crash, temp := some st.temp, output := none,
                 trace := st.trace }
        else
          let pct1 : Rat := (st.current : Rat) * 100 / (total : Rat)
          let tr1 := st.trace ++ [ExCheck.copyBlob fn pct1]
          if f st.k then
            let cur2 := st.current + cfg.size
            let pct2 : Rat := (cur2 : Rat) * 100 / (total : Rat)
            let tr2 := tr1 ++ [ExCheck.copiedBlob fn pct2]
            if f (st.k + 1) then
              .inr { temp := alSet st.temp fn c,
                     blobFiles := st.blobFiles ++ [fn],
                     current := cur2, k := st.k + 2, trace := tr2 }
            else
              .inl { out := .cancelled, temp := none, output := none,
                     trace := tr2 }
          else
            .inl { out := .cancelled, temp := none, output := none,
                   trace := tr1 }
    | none => .inr st
  else .inr st

/-- The `for blob_file in blob_files` archiving loop (lines 226-234): a
checked report at the constant 95 before each member is added; on
cancellation the temp directory is removed and the partially written output
file is deleted. -/
def addFiles (cb : Option (Nat → Bool)) (temp : FileMap) :
    List String → List (String × Content) → Nat → List ExCheck →
    Sum ExportResult (List (String × Content) × Nat × List ExCheck)
  | [], acc, k, tr => .inr (acc, k, tr)
  | fn :: fns, acc, k, tr =>
    match cb with
    | none =>
      addFiles none temp fns
        (acc ++ [(fn, (alGet temp fn).getD (Content.bytes []))]) k tr
    | some f =>
      let tr1 := tr ++ [ExCheck.addingFile fn]
      if f k then
        addFiles (some f) temp fns
          (acc ++ [(fn, (alGet temp fn).getD (Content.bytes []))]) (k + 1) tr1
      else
        .inl { out := .cancelled, temp := none, output := none, trace := tr1 }

/-- `OllamaModelManager.export_model` (lines 113-248).  `mc` is the content of
the manifest file; `store` the blobs directory; `cb` the optional progress
callback; `tarOk = false` injects the filesystem error caught by the
`except` branch around the tar write.  The staged blob files are read back
from the temp directory when archived, as `tar.add(temp_dir / blob_file)`
does; the `getD` default is never hit because every name in `blob_files` was
staged. -/
def exportModel (mc : Content) (modelName paramSize : String)
    (store : FileMap) (cb : Option (Nat → Bool)) (tarOk : Bool) :
    ExportResult :=
  match parseManifest mc with
  | none => { out := .parseError, temp := none, output := none, trace := [] }
  | some m =>
    let metaC : Content := .metaJson (some modelName) (some paramSize)
    let temp0 : FileMap := alSet (alSet [] "metadata.json" metaC) "manifest" mc
    let total := totalSize m
    let st0 : ExSt :=
      { temp := temp0, blobFiles := [], current := 0, k := 0, trace := [] }
    match copyLayers store cb total m.layers st0 with
    | .inl r => r
    | .inr st1 =>
      match copyConfig store cb total m.config st1 with
      | .inl r => r
      | .inr st2 =>
        let step : Sum ExportResult (Nat × List ExCheck) :=
          match cb with
          | none => .inr (st2.k, st2.trace)
          | some f =>
            let tr := st2.trace ++ [ExCheck.creatingArchive]
            if f st2.k then .inr (st2.k + 1, tr)
            else .inl { out := .cancelled, temp := none, output := none,
                        trace := tr }
        match step with
        | .inl r => r
        | .inr (k3, tr3) =>
          if tarOk then
            match addFiles cb st2.temp st2.blobFiles
                [("metadata.json",
                    (alGet st2.temp "metadata.json").getD (Content.bytes [])),
                 ("manifest",
                    (alGet st2.temp "manifest").getD (Content.bytes []))]
                k3 tr3 with
            | .inl r => r
            | .inr (entries, _, tr4) =>
              let tr5 := match cb with
                | none => tr4
                | some _ => tr4 ++ [ExCheck.complete]
              { out := .ok, temp := none, output := some entries, trace := tr5 }
          else
            { out := .ioError, temp := none, output := none, trace := tr3 }

/-- A file or sub-directory inside a legacy (directory-shaped) variant entry.
The manifest-resolution fallback only ever opens files here; a sub-directory
merely fails the `alt.is_file()` test. -/
inductive TagNode where
  | file (c : Content)
  | subdir
deriving DecidableEq

/-- Contents of a legacy variant directory. -/
abbrev TagDir := List (String × TagNode)

/-- One entry of a model directory: in the canonical layout the parameter tag
is a file holding the manifest; legacy layouts nest a directory. -/
inductive TagEntry where
  | file (c : Content)
  | dir (d : TagDir)
deriving DecidableEq

/-- A model directory `library/<modelName>`: parameter-tag entries. -/
abbrev ModelDir := List (String × TagEntry)

/-- One entry of the `library` directory; stray files are skipped by the
scan's `is_dir()` check. -/
inductive LibEntry where
  | file (c : Content)
  | dir (d : ModelDir)
deriving DecidableEq

/-- The `manifests/registry.ollama.ai/library` directory. -/
abbrev Library := List (String × LibEntry)

/-- Python truthiness of an optional string: `None` and `""` are falsy. -/
def falsy : Option String → Bool
  | none => true
  | some s => s == ""

/-- Python's `str.split(sep)` for a single-character separator. -/
def splitOnChar (sep : Char) : List Char → List (List Char)
  | [] => [[]]
  | c :: rest =>
    let r := splitOnChar sep rest
    if c == sep then [] :: r
    else
      match r with
      | [] => [[c]]
      | h :: t => (c :: h) :: t

/-- `s.split(sep)` on strings. -/
def splitStr (sep : Char) (s : String) : List String :=
  (splitOnChar sep s.toList).map String.mk

/-- Destination-name determination of `import_model` (lines 305-333):
`custom_name` (split on ':') takes priority when truthy; otherwise the
metadata fields when both are truthy; otherwise the archive stem is split
on '-' into `(parts[0], parts[-1])`, or `(stem, "default")` when it has no
hyphen. -/
def determineDest (metaName metaTag custom : Option String) (stem : String) :
    String × String :=
  if falsy custom = false then
    let parts := splitStr ':' (custom.getD "")
    (parts.headD "", if parts.length > 1 then parts.getD 1 "" else "default")
  else if falsy metaName || falsy metaTag then
    let parts := splitStr '-' stem
    if parts.length > 1 then (parts.headD "", parts.getLastD "")
    else (stem, "default")
  else (metaName.getD "", metaTag.getD "")

/-- Terminal outcome of `import_model`.  `okCancelledAtEnd` is the source's
`"Operation completed but user cancelled at final step"`; `crash` is the
uncaught `FileExistsError` raised by `model_dir.mkdir(parents=True,
exist_ok=True)` when a plain file already occupies the model-directory
path. -/
inductive ImOutcome where
  | ok
  | okCancelledAtEnd
  | cancelled
  | manifestMissing
  | parseError
  | metaError
  | blobMissingInArchive (fn : String)
  | crash
deriving DecidableEq

/-- Result of an import run: outcome, the updated library and blobs
directory, and the surviving temp directory (`none` means removed). -/
structure ImportResult where
  out : ImOutcome
  lib : Library
  store : FileMap
  temp : Option FileMap
deriving DecidableEq

/-- Install the manifest at `library/<mn>/<pt>` as `shutil.copy2(manifest_file,
model_path)` does: a fresh or existing model directory gets the file `pt`;
when `pt` is already a directory, `copy2` drops the file into it under the
source's basename `"manifest"`. -/
def libInstall (lib : Library) (mn pt : String) (mc : Content) : Library :=
  match alGet lib mn with
  | none => lib ++ [(mn, .dir [(pt, .file mc)])]
  | some (.file _) => lib
  | some (.dir md) =>
    match alGet md pt with
    | some (.dir sub) =>
      alSet lib mn (.dir (alSet md pt (.dir (alSet sub "manifest" (.file mc)))))
    | _ => alSet lib mn (.dir (alSet md pt (.file mc)))

/-- The member-by-member extraction loop of `import_model` (lines 271-278):
a checked report per member, then the member is written into the temp
directory. -/
def extractMembers (cb : Option (Nat → Bool)) :
    List (String × Content) → FileMap → Nat → Sum ImOutcome (FileMap × Nat)
  | [], temp, k => .inr (temp, k)
  | (fn, c) :: ms, temp, k =>
    match cb with
    | none => extractMembers none ms (alSet temp fn c) k
    | some f =>
      if f k then extractMembers (some f) ms (alSet temp fn c) (k + 1)
      else .inl .cancelled

/-- The layer-blob copy loop of `import_model` (lines 384-409): skip
non-`sha256:` digests; a referenced blob absent from the archive is fatal
(temp removed, already-copied blobs kept); otherwise a checked report, then
the blob is copied into the blobs directory. -/
def importLayers (temp : FileMap) (cb : Option (Nat → Bool)) :
    List Layer → FileMap → Nat → Sum (ImOutcome × FileMap) (FileMap × Nat)
  | [], store, k => .inr (store, k)
  | l :: ls, store, k =>
    if startsSha l.digest then
      let fn := digestFilename l.digest
      match alGet temp fn with
      | some c =>
        match cb with
        | none => importLayers temp none ls (alSet store fn c) k
        | some f =>
          if f k then importLayers temp (some f) ls (alSet store fn c) (k + 1)
          else .inl (.cancelled, store)
      | none => .inl (.blobMissingInArchive fn, store)
    else importLayers temp cb ls store k

/-- `OllamaModelManager.import_model` (lines 250-419).  The archive is given
as its member list (name, content) plus the `archive_path.stem` string the
name inference uses; `lib`/`store` are the manifests `library` tree and the
blobs directory. -/
def importModel (members : List (String × Content)) (stem : String)
    (custom : Option String) (lib : Library) (store : FileMap)
    (cb : Option (Nat → Bool)) : ImportResult :=
  let cancelledR : ImportResult :=
    { out := .cancelled, lib := lib, store := store, temp := none }
  let step0 : Sum ImportResult (FileMap × Nat) :=
    match cb with
    | none => .inr ([], 0)
    | some f =>
      if f 0 then
        match extractMembers (some f) members [] 1 with
        | .inl o => .inl { out := o, lib := lib, store := store, temp := none }
        | .inr tk => .inr tk
      else .inl cancelledR
  match step0 with
  | .inl r => r
  | .inr (temp, k1) =>
    let temp :=
      match cb with
      | none => alSetAll [] members
      | some _ => temp
    match alGet temp "manifest" with
    | none =>
      { out := .manifestMissing, lib := lib, store := store, temp := none }
    | some mcontent =>
      let step1 : Sum ImportResult Nat :=
        match cb with
        | none => .inr k1
        | some f => if f k1 then .inr (k1 + 1) else .inl cancelledR
      match step1 with
      | .inl r => r
      | .inr k2 =>
        match parseManifest mcontent with
        | none =>
          { out := .parseError, lib := lib, store := store, temp := none }
        | some m =>
          let metaStep : Sum ImportResult (Option String × Option String) :=
            match alGet temp "metadata.json" with
            | none => .inr (none, none)
            | some c =>
              match parseMeta c with
              | some nt => .inr nt
              | none =>
                .inl { out := .metaError, lib := lib, store := store,
                       temp := some temp }
          match metaStep with
          | .inl r => r
          | .inr (metaName, metaTag) =>
            let dest := determineDest metaName metaTag custom stem
            let mn := dest.1
            let pt := dest.2
            match alGet lib mn with
            | some (.file _) =>
              { out := .crash, lib := lib, store := store, temp := some temp }
            | _ =>
              let step2 : Sum ImportResult Nat :=
                match cb with
                | none => .inr k2
                | some f => if f k2 then .inr (k2 + 1) else .inl cancelledR
              match step2 with
              | .inl r => r
              | .inr k3 =>
                let lib1 := libInstall lib mn pt mcontent
                let cfgStep : Sum ImportResult (FileMap × Nat) :=
                  if startsSha m.config.digest then
                    let fn := digestFilename m.config.digest
                    match alGet temp fn with
                    | some c =>
                      match cb with
                      | none => .inr (alSet store fn c, k3)
                      | some f =>
                        if f k3 then .inr (alSet store fn c, k3 + 1)
                        else .inl { out := .cancelled, lib := lib1,
                                    store := store, temp := none }
                    | none => .inr (store, k3)
                  else .inr (store, k3)
                match cfgStep with
                | .inl r => r
                | .inr (store1, k4) =>
                  match importLayers temp cb m.layers store1 k4 with
                  | .inl (o, store2) =>
                    { out := o, lib := lib1, store := store2, temp := none }
                  | .inr (store2, k5) =>
                    let outFinal : ImOutcome :=
                      match cb with
                      | none => .ok
                      | some f => if f k5 then .ok else .okCancelledAtEnd
                    { out := outFinal, lib := lib1, store := store2,
                      temp := none }

/-- Terminal outcome of `delete_model`.  `parseError` covers every failure of
the `open`/`json.load` block (including `IsADirectoryError` when the variant
path is a legacy directory); `okCancelledAtEnd` is the source's completed-but-
cancelled return at the final report. -/
inductive DelOutcome where
  | ok
  | okCancelledAtEnd
  | notFound
  | parseError
  | cancelled
deriving DecidableEq

/-- Result of a delete run: outcome plus the updated library and blobs
directory. -/
structure DeleteResult where
  out : DelOutcome
  lib : Library
  store : FileMap
deriving DecidableEq

/-- The digests collected by `delete_model` (lines 442-453): config first,
then layers, keeping only `sha256:`-prefixed ones. -/
def collectDigests (m : Manifest) : List String :=
  (if startsSha m.config.digest then [m.config.digest] else []) ++
    (m.layers.filter fun l => startsSha l.digest).map (·.digest)

/-- The blob-deletion loop of `delete_model` (lines 463-476): existing blob
files get a checked report then are unlinked; missing ones are skipped. -/
def deleteBlobs (cb : Option (Nat → Bool)) :
    List String → FileMap → Nat → Sum FileMap (FileMap × Nat)
  | [], store, k => .inr (store, k)
  | fn :: fns, store, k =>
    match alGet store fn with
    | some _ =>
      match cb with
      | none => deleteBlobs none fns (alErase store fn) k
      | some f =>
        if f k then deleteBlobs (some f) fns (alErase store fn) (k + 1)
        else .inl store
    | none => deleteBlobs cb fns store k

/-- `OllamaModelManager.delete_model` (lines 421-506). -/
def deleteModel (mn pt : String) (lib : Library) (store : FileMap)
    (cb : Option (Nat → Bool)) : DeleteResult :=
  let unchanged : DelOutcome → DeleteResult := fun o =>
    { out := o, lib := lib, store := store }
  match alGet lib mn with
  | none => unchanged .notFound
  | some (.file _) => unchanged .notFound
  | some (.dir md) =>
    match alGet md pt with
    | none => unchanged .notFound
    | some entry =>
      let step0 : Sum DeleteResult Nat :=
        match cb with
        | none => .inr 0
        | some f => if f 0 then .inr 1 else .inl (unchanged .cancelled)
      match step0 with
      | .inl r => r
      | .inr k1 =>
        match entry with
        | .dir _ => unchanged .parseError
        | .file c =>
          match parseManifest c with
          | none => unchanged .parseError
          | some m =>
            let blobFilenames := (collectDigests m).map digestFilename
            let step1 : Sum DeleteResult Nat :=
              match cb with
              | none => .inr k1
              | some f =>
                if f k1 then .inr (k1 + 1) else .inl (unchanged .cancelled)
            match step1 with
            | .inl r => r
            | .inr k2 =>
              match deleteBlobs cb blobFilenames store k2 with
              | .inl store1 =>
                { out := .cancelled, lib := lib, store := store1 }
              | .inr (store1, k3) =>
                let step2 : Sum DeleteResult Nat :=
                  match cb with
                  | none => .inr k3
                  | some f =>
                    if f k3 then .inr (k3 + 1)
                    else .inl { out := .cancelled, lib := lib,
                                store := store1 }
                match step2 with
                | .inl r => r
                | .inr k4 =>
                  let md1 := alErase md pt
                  let libAndK : Library × Nat :=
                    if md1.isEmpty then
                      (alErase lib mn,
                        match cb with
                        | none => k4
                        | some _ => k4 + 1)
                    else (alSet lib mn (.dir md1), k4)
                  let outFinal : DelOutcome :=
                    match cb with
                    | none => .ok
                    | some f => if f libAndK.2 then .ok else .okCancelledAtEnd
                  { out := outFinal, lib := libAndK.1, store := store1 }

/-- One row of the mapping `list_models` builds per variant.  The source also
records two path strings (`path`, `manifest_file`); they are rendered purely
for display, are not inspected by any engine logic, and are omitted here. -/
structure Variant where
  paramSize : String
  sizeGb : Rat
deriving DecidableEq

/-- Manifest-file resolution of `list_models` (lines 56-79): a file entry is
itself the manifest; a legacy directory is searched for `<tag>`,
`"manifest"`, `"manifest.json"` in that order, taking the first that exists
and is a file. -/
def resolveManifestFile (pt : String) (e : TagEntry) : Option Content :=
  match e with
  | .file c => some c
  | .dir d =>
    [pt, "manifest", "manifest.json"].findSome? fun alt =>
      match alGet d alt with
      | some (.file c) => some c
      | _ => none

/-- Display size: the sum of the layer sizes only (config excluded). -/
def layerSum (m : Manifest) : Nat := (m.layers.map (·.size)).sum

/-- The variants of one model directory in entry order, parse failures
skipped (lines 51-107). -/
def scanDir (md : ModelDir) : List Variant :=
  md.filterMap fun p =>
    ((resolveManifestFile p.1 p.2).bind parseManifest).map fun m =>
      { paramSize := p.1, sizeGb := (layerSum m : Rat) / ((1024 : Rat) ^ 3) }

/-- `models[model_name] = []` creation plus `append` (lines 95-103). -/
def dictAdd (models : List (String × List Variant)) (mn : String)
    (v : Variant) : List (String × List Variant) :=
  if (alGet models mn).isSome then
    models.map fun p => if p.1 = mn then (p.1, p.2 ++ [v]) else p
  else models ++ [(mn, [v])]

/-- One step of the scan's walk over `library`: stray files are skipped
(`is_dir()` check), a model directory contributes its parsed variants. -/
def scanStep (models : List (String × List Variant)) (p : String × LibEntry) :
    List (String × List Variant) :=
  match p.2 with
  | .file _ => models
  | .dir md => (scanDir md).foldl (fun ms v => dictAdd ms p.1 v) models

/-- `OllamaModelManager.list_models` (lines 29-111) over the `library`
directory: walk model directories (skipping stray files), resolve and parse
each variant's manifest, and accumulate the per-model variant lists. -/
def scan (lib : Library) : List (String × List Variant) :=
  lib.foldl scanStep []


/-! ### Association-list lemmas -/

@[simp] theorem alGet_nil {α : Type} (k : String) :
    alGet ([] : List (String × α)) k = none := rfl

theorem alGet_cons {α : Type} (p : String × α) (m : List (String × α)) (k : String) :
    alGet (p :: m) k = if k = p.1 then some p.2 else alGet m k := rfl

theorem alGet_append_right {α : Type} (m₁ m₂ : List (String × α)) (k : String)
    (h : alGet m₁ k = none) : alGet (m₁ ++ m₂) k = alGet m₂ k := by
  induction m₁ with
  | nil => simp
  | cons p m ih =>
    rw [List.cons_append, alGet_cons]
    rw [alGet_cons] at h
    by_cases hk : k = p.1
    · simp [hk] at h
    · rw [if_neg hk] at h ⊢
      exact ih h

theorem lookup_map_update_same {α : Type} (m : List (String × α)) (k : String) (v : α)
    (h : (alGet m k).isSome) :
    alGet (m.map fun p => if p.1 = k then (k, v) else p) k = some v := by
  induction m with
  | nil => simp at h
  | cons p m ih =>
    rw [alGet_cons] at h
    simp only [List.map_cons]
    by_cases hk : p.1 = k
    · rw [if_pos hk, alGet_cons, if_pos rfl]
    · rw [if_neg hk, alGet_cons, if_neg (fun hc : k = p.1 => hk hc.symm)]
      rw [if_neg (fun hc : k = p.1 => hk hc.symm)] at h
      exact ih h

theorem lookup_map_update_ne {α : Type} (m : List (String × α)) (k k' : String) (v : α)
    (h : k' ≠ k) :
    alGet (m.map fun p => if p.1 = k then (k, v) else p) k' = alGet m k' := by
  induction m with
  | nil => rfl
  | cons p m ih =>
    simp only [List.map_cons]
    by_cases hk : p.1 = k
    · rw [if_pos hk, alGet_cons, alGet_cons, if_neg (hk ▸ h), if_neg (fun hc : k' = p.1 => h (hc.trans hk))]
      exact ih
    · rw [if_neg hk, alGet_cons, alGet_cons]
      by_cases hk' : k' = p.1
      · rw [if_pos hk', if_pos hk']
      · rw [if_neg hk', if_neg hk']
        exact ih

theorem alGet_alSet_same {α : Type} (m : List (String × α)) (k : String) (v : α) :
    alGet (alSet m k v) k = some v := by
  unfold alSet
  by_cases h : (alGet m k).isSome
  · rw [if_pos h]
    exact lookup_map_update_same m k v h
  · rw [if_neg h]
    have h0 : alGet m k = none := by
      cases hl : alGet m k
      · rfl
      · rw [hl] at h; simp at h
    rw [alGet_append_right _ _ _ h0, alGet_cons, if_pos rfl]

theorem alGet_alSet_ne {α : Type} (m : List (String × α)) (k k' : String) (v : α)
    (h : k' ≠ k) : alGet (alSet m k v) k' = alGet m k' := by
  unfold alSet
  by_cases hs : (alGet m k).isSome
  · rw [if_pos hs]
    exact lookup_map_update_ne m k k' v h
  · rw [if_neg hs]
    induction m with
    | nil => simp [alGet_cons, h]
    | cons p m ih =>
      rw [List.cons_append, alGet_cons, alGet_cons]
      by_cases hk' : k' = p.1
      · rw [if_pos hk', if_pos hk']
      · rw [if_neg hk', if_neg hk']
        rw [alGet_cons] at hs
        by_cases hkp : k = p.1
        · simp [hkp] at hs
        · rw [if_neg hkp] at hs
          exact ih hs

theorem alGet_alSet (m : List (String × Content)) (k k' : String) (v : Content) :
    alGet (alSet m k v) k' = if k' = k then some v else alGet m k' := by
  by_cases h : k' = k
  · rw [if_pos h, h, alGet_alSet_same]
  · rw [if_neg h, alGet_alSet_ne _ _ _ _ h]

theorem alGet_alErase_ne {α : Type} (m : List (String × α)) (k k' : String)
    (h : k' ≠ k) : alGet (alErase m k) k' = alGet m k' := by
  induction m with
  | nil => rfl
  | cons p m ih =>
    rw [alErase]
    by_cases hk : p.1 = k
    · rw [if_pos hk, alGet_cons, if_neg (fun hc : k' = p.1 => h (hc.trans hk))]
    · rw [if_neg hk, alGet_cons, alGet_cons]
      by_cases hk' : k' = p.1
      · rw [if_pos hk', if_pos hk']
      · rw [if_neg hk', if_neg hk']
        exact ih

theorem mem_keys_of_alGet {α : Type} (m : List (String × α)) (k : String) (v : α)
    (h : alGet m k = some v) : k ∈ m.map Prod.fst := by
  induction m with
  | nil => simp at h
  | cons q m ih =>
    rw [alGet_cons] at h
    by_cases hq : k = q.1
    · rw [List.map_cons, hq]
      exact List.mem_cons_self _ _
    · rw [if_neg hq] at h
      exact List.mem_cons_of_mem _ (ih h)

theorem alGet_alErase_self {α : Type} (m : List (String × α)) (k : String)
    (hnd : (m.map Prod.fst).Nodup) : alGet (alErase m k) k = none := by
  induction m with
  | nil => rfl
  | cons p m ih =>
    rw [List.map_cons, List.nodup_cons] at hnd
    rw [alErase]
    by_cases hk : p.1 = k
    · rw [if_pos hk]
      cases hl : alGet m k
      · rfl
      · exact absurd (hk ▸ mem_keys_of_alGet m k _ hl) hnd.1
    · rw [if_neg hk, alGet_cons, if_neg (fun hc : k = p.1 => hk hc.symm)]
      exact ih hnd.2

theorem alSetAll_nil {α : Type} (m : List (String × α)) : alSetAll m [] = m := rfl

theorem alSetAll_cons {α : Type} (m : List (String × α)) (p : String × α)
    (ps : List (String × α)) :
    alSetAll m (p :: ps) = alSetAll (alSet m p.1 p.2) ps := rfl

theorem alSetAll_append {α : Type} (m : List (String × α))
    (ps qs : List (String × α)) :
    alSetAll m (ps ++ qs) = alSetAll (alSetAll m ps) qs := by
  induction ps generalizing m with
  | nil => rfl
  | cons p ps ih => rw [List.cons_append, alSetAll_cons, alSetAll_cons, ih]

theorem alGet_alSetAll_notMem {α : Type} (m : List (String × α))
    (ps : List (String × α)) (k : String) (h : k ∉ ps.map Prod.fst) :
    alGet (alSetAll m ps) k = alGet m k := by
  induction ps generalizing m with
  | nil => rfl
  | cons p ps ih =>
    rw [List.map_cons] at h
    rw [alSetAll_cons, ih _ (fun hc => h (List.mem_cons_of_mem _ hc)),
      alGet_alSet_ne]
    exact fun hc => h (hc ▸ List.mem_cons_self _ _)

theorem alGet_alSetAll_uniform {α : Type} (m : List (String × α))
    (ps : List (String × α)) (k : String) (v : α)
    (hmem : k ∈ ps.map Prod.fst) (huni : ∀ w, (k, w) ∈ ps → w = v) :
    alGet (alSetAll m ps) k = some v := by
  induction ps generalizing m with
  | nil => simp at hmem
  | cons p ps ih =>
    rw [alSetAll_cons]
    by_cases hk : k ∈ ps.map Prod.fst
    · exact ih _ hk (fun w hw => huni w (List.mem_cons_of_mem _ hw))
    · rw [List.map_cons] at hmem
      rcases List.mem_cons.mp hmem with h1 | h1
      · have hp : p = (k, v) := by
          rcases p with ⟨a, b⟩
          have ha : a = k := h1.symm
          subst ha
          have hb := huni b (List.mem_cons_self _ _)
          rw [hb]
        rw [hp]
        rw [alGet_alSetAll_notMem _ _ _ hk, alGet_alSet_same]
      · exact absurd h1 hk

/-! ### Digest and filename lemmas -/

theorem take_toList_of_startsSha (d : String) (h : startsSha d = true) :
    d.toList.take 7 = shaTag := by
  simpa [startsSha] using h

theorem digestFilename_toList (d : String) :
    (digestFilename d).toList = d.toList.map fun c => if c == ':' then '-' else c := rfl

theorem digestFilename_take (d : String) (h : startsSha d = true) :
    (digestFilename d).toList.take 7 = "sha256-".toList := by
  rw [digestFilename_toList, ← List.map_take, take_toList_of_startsSha d h]
  rfl

theorem digestFilename_ne_metadata (d : String) (h : startsSha d = true) :
    digestFilename d ≠ "metadata.json" := by
  intro hc
  have h7 := digestFilename_take d h
  rw [hc] at h7
  exact absurd h7 (by decide)

theorem digestFilename_ne_manifest (d : String) (h : startsSha d = true) :
    digestFilename d ≠ "manifest" := by
  intro hc
  have h7 := digestFilename_take d h
  rw [hc] at h7
  exact absurd h7 (by decide)

/-! ### Derived descriptions of the export loops -/

/-- The layers whose digest passes the `startswith("sha256:")` test. -/
def shaLayers (ls : List Layer) : List Layer := ls.filter fun l => startsSha l.digest

/-- Blob filenames of the sha-prefixed layers, in manifest order. -/
def shaNames (ls : List Layer) : List String :=
  (shaLayers ls).map fun l => digestFilename l.digest

/-- Total size of the sha-prefixed layers. -/
def shaSize (ls : List Layer) : Nat := ((shaLayers ls).map (·.size)).sum

/-- The name/content pairs the layer loop stages into the temp directory. -/
def stagePairs (store : FileMap) (ls : List Layer) : List (String × Content) :=
  (shaNames ls).map fun fn => (fn, (alGet store fn).getD (Content.bytes []))

/-- Every sha-prefixed layer digest has a backing blob file. -/
def allShaPresent (store : FileMap) (ls : List Layer) : Prop :=
  ∀ l ∈ ls, startsSha l.digest = true →
    (alGet store (digestFilename l.digest)).isSome = true

/-- Filename of the first sha-prefixed layer whose blob is absent. -/
def firstMissingSha (store : FileMap) : List Layer → Option String
  | [] => none
  | l :: ls =>
    if startsSha l.digest then
      if (alGet store (digestFilename l.digest)).isSome then
        firstMissingSha store ls
      else some (digestFilename l.digest)
    else firstMissingSha store ls

/-- The pairs staged before the layer loop hits its first missing blob. -/
def stagedUntilMissing (store : FileMap) : List Layer → List (String × Content)
  | [] => []
  | l :: ls =>
    if startsSha l.digest then
      match alGet store (digestFilename l.digest) with
      | some c => (digestFilename l.digest, c) :: stagedUntilMissing store ls
      | none => []
    else stagedUntilMissing store ls

/-- The digests a manifest references: config first, then the layers. -/
def refDigests (m : Manifest) : List String :=
  m.config.digest :: m.layers.map (·.digest)

/-- A digest resolves (per the BlobResolver contract it must carry the
recognized scheme tag) and its blob file exists. -/
def blobPresent (store : FileMap) (d : String) : Prop :=
  startsSha d = true ∧ (alGet store (digestFilename d)).isSome = true

/-- The config blob filename, when the config digest is sha-prefixed and its
blob exists (otherwise the export stages nothing for it). -/
def configNames (store : FileMap) (cfg : ConfigRef) : List String :=
  if startsSha cfg.digest && (alGet store (digestFilename cfg.digest)).isSome then
    [digestFilename cfg.digest]
  else []

/-- An archive member for a staged blob. -/
def blobEntry (store : FileMap) (fn : String) : String × Content :=
  (fn, (alGet store fn).getD (Content.bytes []))

/-- The members of a successful export's archive, in the order written. -/
def archiveEntries (mc : Content) (mn pt : String) (store : FileMap)
    (m : Manifest) : List (String × Content) :=
  ("metadata.json", Content.metaJson (some mn) (some pt)) :: ("manifest", mc) ::
    (shaNames m.layers ++ configNames store m.config).map (blobEntry store)

theorem firstMissingSha_eq_none_iff (store : FileMap) (ls : List Layer) :
    firstMissingSha store ls = none ↔ allShaPresent store ls := by
  induction ls with
  | nil => simp [firstMissingSha, allShaPresent]
  | cons l ls ih =>
    rw [firstMissingSha]
    by_cases hsha : startsSha l.digest
    · rw [if_pos hsha]
      by_cases hp : (alGet store (digestFilename l.digest)).isSome
      · rw [if_pos hp, ih]
        constructor
        · intro h l' hl' hsha'
          rcases List.mem_cons.mp hl' with rfl | hl'
          · exact hp
          · exact h l' hl' hsha'
        · intro h l' hl' hsha'
          exact h l' (List.mem_cons_of_mem _ hl') hsha'
      · rw [if_neg hp]
        constructor
        · intro h; exact absurd h (by simp)
        · intro h
          exact absurd (h l (List.mem_cons_self _ _) hsha) hp
    · rw [if_neg hsha, ih]
      constructor
      · intro h l' hl' hsha'
        rcases List.mem_cons.mp hl' with rfl | hl'
        · exact absurd hsha' hsha
        · exact h l' hl' hsha'
      · intro h l' hl' hsha'
        exact h l' (List.mem_cons_of_mem _ hl') hsha'

theorem firstMissingSha_mem (store : FileMap) (ls : List Layer) (fn : String)
    (h : firstMissingSha store ls = some fn) :
    ∃ l ∈ ls, startsSha l.digest = true ∧ fn = digestFilename l.digest ∧
      alGet store (digestFilename l.digest) = none := by
  induction ls with
  | nil => simp [firstMissingSha] at h
  | cons l ls ih =>
    rw [firstMissingSha] at h
    by_cases hsha : startsSha l.digest
    · rw [if_pos hsha] at h
      by_cases hp : (alGet store (digestFilename l.digest)).isSome
      · rw [if_pos hp] at h
        rcases ih h with ⟨l', hl', h1, h2, h3⟩
        exact ⟨l', List.mem_cons_of_mem _ hl', h1, h2, h3⟩
      · rw [if_neg hp] at h
        refine ⟨l, List.mem_cons_self _ _, hsha, (Option.some_injective _ h).symm, ?_⟩
        cases hc : alGet store (digestFilename l.digest)
        · rfl
        · rw [hc] at hp; simp at hp
    · rw [if_neg hsha] at h
      rcases ih h with ⟨l', hl', h1, h2, h3⟩
      exact ⟨l', List.mem_cons_of_mem _ hl', h1, h2, h3⟩

/-! ### The layer loop without a progress callback -/

theorem copyLayers_none_ok (store : FileMap) (total : Nat) (ls : List Layer)
    (st : ExSt) (h : allShaPresent store ls) :
    copyLayers store none total ls st = .inr
      { temp := alSetAll st.temp (stagePairs store ls),
        blobFiles := st.blobFiles ++ shaNames ls,
        current := st.current + shaSize ls,
        k := st.k, trace := st.trace } := by
  induction ls generalizing st with
  | nil =>
    simp [copyLayers, stagePairs, shaNames, shaLayers, shaSize, alSetAll]
  | cons l ls ih =>
    rw [copyLayers]
    by_cases hsha : startsSha l.digest
    · have hp := h l (List.mem_cons_self _ _) hsha
      cases hc : alGet store (digestFilename l.digest) with
      | none => rw [hc] at hp; simp at hp
      | some c =>
        simp only [hsha, if_true, hc]
        rw [ih _ (fun l' hl' hs' => h l' (List.mem_cons_of_mem _ hl') hs')]
        have e1 : stagePairs store (l :: ls) =
            (digestFilename l.digest, c) :: stagePairs store ls := by
          simp [stagePairs, shaNames, shaLayers, hsha, hc, blobEntry]
        have e2 : shaNames (l :: ls) = digestFilename l.digest :: shaNames ls := by
          simp [shaNames, shaLayers, hsha]
        have e3 : shaSize (l :: ls) = l.size + shaSize ls := by
          simp [shaSize, shaLayers, hsha]
        rw [e1, e2, e3, alSetAll_cons]
        simp [Nat.add_assoc, List.append_assoc]
    · simp only [hsha, if_false, Bool.false_eq_true]
      rw [ih _ (fun l' hl' hs' => h l' (List.mem_cons_of_mem _ hl') hs')]
      have e1 : stagePairs store (l :: ls) = stagePairs store ls := by
        simp [stagePairs, shaNames, shaLayers, hsha]
      have e2 : shaNames (l :: ls) = shaNames ls := by
        simp [shaNames, shaLayers, hsha]
      have e3 : shaSize (l :: ls) = shaSize ls := by
        simp [shaSize, shaLayers, hsha]
      rw [e1, e2, e3]

theorem copyLayers_none_fail (store : FileMap) (total : Nat) (ls : List Layer)
    (st : ExSt) (fn : String) (h : firstMissingSha store ls = some fn) :
    copyLayers store none total ls st = .inl
      { out := .blobMissing fn,
        temp := some (alSetAll st.temp (stagedUntilMissing store ls)),
        output := none, trace := st.trace } := by
  induction ls generalizing st with
  | nil => simp [firstMissingSha] at h
  | cons l ls ih =>
    rw [copyLayers, firstMissingSha] at *
    by_cases hsha : startsSha l.digest
    · rw [if_pos hsha] at h
      cases hc : alGet store (digestFilename l.digest) with
      | none =>
        rw [hc] at h
        simp only [Option.isSome_none, Bool.false_eq_true, if_false] at h
        simp only [hsha, if_true, hc]
        have e1 : stagedUntilMissing store (l :: ls) = [] := by
          rw [stagedUntilMissing, if_pos hsha, hc]
        rw [e1, alSetAll_nil, Option.some_injective _ h]
      | some c =>
        rw [hc] at h
        simp only [Option.isSome_some, if_true] at h
        simp only [hsha, if_true, hc]
        rw [ih _ h]
        have e1 : stagedUntilMissing store (l :: ls) =
            (digestFilename l.digest, c) :: stagedUntilMissing store ls := by
          rw [stagedUntilMissing, if_pos hsha, hc]
        rw [e1, alSetAll_cons]
    · rw [if_neg hsha] at h
      simp only [hsha, if_false, Bool.false_eq_true]
      rw [ih _ h]
      have e1 : stagedUntilMissing store (l :: ls) = stagedUntilMissing store ls := by
        rw [stagedUntilMissing, if_neg hsha]
      rw [e1]

/-- The config-blob pairs the export stages (empty when skipped). -/
def configPairs (store : FileMap) (cfg : ConfigRef) : List (String × Content) :=
  (configNames store cfg).map (blobEntry store)

theorem copyConfig_none (store : FileMap) (total : Nat) (cfg : ConfigRef)
    (st : ExSt) :
    copyConfig store none total cfg st = .inr
      { temp := alSetAll st.temp (configPairs store cfg),
        blobFiles := st.blobFiles ++ configNames store cfg,
        current := st.current +
          (if (configNames store cfg).isEmpty then 0 else cfg.size),
        k := st.k, trace := st.trace } := by
  rw [copyConfig]
  by_cases hsha : startsSha cfg.digest
  · rw [if_pos hsha]
    cases hc : alGet store (digestFilename cfg.digest) with
    | none =>
      have e1 : configNames store cfg = [] := by
        simp [configNames, hsha, hc]
      simp [e1, configPairs, alSetAll, hc]
    | some c =>
      have e1 : configNames store cfg = [digestFilename cfg.digest] := by
        simp [configNames, hsha, hc]
      simp [e1, configPairs, blobEntry, alSetAll, hc]
  · rw [if_neg hsha]
    have e1 : configNames store cfg = [] := by
      simp [configNames, hsha]
    simp [e1, configPairs, alSetAll]

theorem addFiles_none (temp : FileMap) (fns : List String)
    (acc : List (String × Content)) (k : Nat) (tr : List ExCheck) :
    addFiles none temp fns acc k tr =
      .inr (acc ++ fns.map (blobEntry temp), k, tr) := by
  induction fns generalizing acc with
  | nil => simp [addFiles]
  | cons fn fns ih =>
    rw [addFiles, ih]
    simp [blobEntry, List.append_assoc]

theorem stagePairs_eq_map (store : FileMap) (ls : List Layer) :
    stagePairs store ls = (shaNames ls).map (blobEntry store) := rfl

theorem mem_shaNames (ls : List Layer) (fn : String) (h : fn ∈ shaNames ls) :
    ∃ l ∈ ls, startsSha l.digest = true ∧ fn = digestFilename l.digest := by
  rcases List.mem_map.mp h with ⟨l, hl, rfl⟩
  rcases List.mem_filter.mp hl with ⟨hmem, hsha⟩
  exact ⟨l, hmem, hsha, rfl⟩

theorem mem_configNames (store : FileMap) (cfg : ConfigRef) (fn : String)
    (h : fn ∈ configNames store cfg) :
    startsSha cfg.digest = true ∧ fn = digestFilename cfg.digest := by
  unfold configNames at h
  by_cases hb : startsSha cfg.digest && (alGet store (digestFilename cfg.digest)).isSome
  · rw [if_pos hb] at h
    rcases List.mem_singleton.mp h with rfl
    exact ⟨(Bool.and_eq_true_iff.mp hb).1, rfl⟩
  · rw [if_neg hb] at h
    simp at h

theorem mem_blobNames_sha (store : FileMap) (m : Manifest) (fn : String)
    (h : fn ∈ shaNames m.layers ++ configNames store m.config) :
    (∃ d, startsSha d = true ∧ fn = digestFilename d) := by
  rcases List.mem_append.mp h with h1 | h1
  · rcases mem_shaNames _ _ h1 with ⟨l, _, hsha, hfn⟩
    exact ⟨l.digest, hsha, hfn⟩
  · rcases mem_configNames _ _ _ h1 with ⟨hsha, hfn⟩
    exact ⟨m.config.digest, hsha, hfn⟩

theorem keys_map_blobEntry (store : FileMap) (fns : List String) :
    (fns.map (blobEntry store)).map Prod.fst = fns := by
  induction fns with
  | nil => rfl
  | cons fn fns ih => simp only [List.map_cons, blobEntry, ih]

theorem uniform_map_blobEntry (store : FileMap) (fns : List String) (k : String)
    (w : Content) (h : (k, w) ∈ fns.map (blobEntry store)) :
    w = (alGet store k).getD (Content.bytes []) := by
  rcases List.mem_map.mp h with ⟨fn, _, he⟩
  rcases he
  rfl

theorem configPairs_eq_map (store : FileMap) (cfg : ConfigRef) :
    configPairs store cfg = (configNames store cfg).map (blobEntry store) := rfl

theorem exportModel_none_ok (mc : Content) (m : Manifest) (mn pt : String)
    (store : FileMap) (hp : parseManifest mc = some m)
    (hall : allShaPresent store m.layers) :
    exportModel mc mn pt store none true =
      { out := .ok, temp := none,
        output := some (archiveEntries mc mn pt store m), trace := [] } := by
  unfold exportModel
  rw [hp]
  simp only [copyLayers_none_ok store (totalSize m) m.layers _ hall,
    copyConfig_none, addFiles_none, if_true]
  rw [← alSetAll_append, stagePairs_eq_map, configPairs_eq_map,
    ← List.map_append]
  set names := shaNames m.layers ++ configNames store m.config with hnames
  set temp0 := alSet (alSet [] "metadata.json"
    (Content.metaJson (some mn) (some pt))) "manifest" mc with ht0
  set temp2 := alSetAll temp0 (names.map (blobEntry store)) with ht2
  have hnotsha : ∀ fn ∈ names, fn ≠ "metadata.json" ∧ fn ≠ "manifest" := by
    intro fn hfn
    rcases mem_blobNames_sha store m fn (hnames ▸ hfn) with ⟨d, hd, rfl⟩
    exact ⟨digestFilename_ne_metadata d hd, digestFilename_ne_manifest d hd⟩
  have hkeys : (names.map (blobEntry store)).map Prod.fst = names :=
    keys_map_blobEntry store names
  have hmeta : alGet temp2 "metadata.json" =
      some (Content.metaJson (some mn) (some pt)) := by
    rw [ht2, alGet_alSetAll_notMem _ _ _
      (by rw [hkeys]; exact fun hc => ((hnotsha _ hc).1) rfl)]
    rw [ht0, alGet_alSet_ne _ _ _ _ (by decide), alGet_alSet_same]
  have hman : alGet temp2 "manifest" = some mc := by
    rw [ht2, alGet_alSetAll_notMem _ _ _
      (by rw [hkeys]; exact fun hc => ((hnotsha _ hc).2) rfl)]
    rw [ht0, alGet_alSet_same]
  have hblob : ∀ fn ∈ names, blobEntry temp2 fn = blobEntry store fn := by
    intro fn hfn
    have hget : alGet temp2 fn = some ((alGet store fn).getD (Content.bytes [])) := by
      rw [ht2]
      apply alGet_alSetAll_uniform
      · rw [hkeys]; exact hfn
      · intro w hw
        exact uniform_map_blobEntry store names fn w hw
    unfold blobEntry
    rw [hget]
    rfl
  rw [hmeta, hman]
  unfold archiveEntries
  rw [List.nil_append, List.map_congr_left hblob]
  rfl

/-- The temp directory right after `metadata.json` and the manifest copy are
written (lines 130-141). -/
def exportTemp0 (mc : Content) (mn pt : String) : FileMap :=
  alSet (alSet [] "metadata.json" (Content.metaJson (some mn) (some pt)))
    "manifest" mc

theorem exportModel_none_fail (mc : Content) (m : Manifest) (mn pt : String)
    (store : FileMap) (fn : String) (tarOk : Bool)
    (hp : parseManifest mc = some m)
    (hm : firstMissingSha store m.layers = some fn) :
    exportModel mc mn pt store none tarOk =
      { out := .blobMissing fn,
        temp := some (alSetAll (exportTemp0 mc mn pt)
          (stagedUntilMissing store m.layers)),
        output := none, trace := [] } := by
  unfold exportModel
  rw [hp]
  simp only [copyLayers_none_fail store (totalSize m) m.layers _ fn hm]
  rfl

instance (store : FileMap) (d : String) : Decidable (blobPresent store d) := by
  unfold blobPresent
  infer_instance

instance (store : FileMap) (ls : List Layer) : Decidable (allShaPresent store ls) := by
  unfold allShaPresent
  infer_instance

/-! ### Claim C1 -/

/-- C1 (amended): `export(M)` fails with `BlobMissing` iff at least one
**layer** digest carrying the `sha256:` scheme tag has no backing blob file;
a missing **config** blob is silently skipped rather than reported.  With
every referenced digest resolvable and backed by a blob, export succeeds and
the archive contains a blob file, with the stored content, for every
referenced digest. -/
theorem C1_export_blobMissing_iff (mc : Content) (m : Manifest)
    (mn pt : String) (store : FileMap) (hp : parseManifest mc = some m) :
    ((∃ fn, (exportModel mc mn pt store none true).out = .blobMissing fn) ↔
      ∃ l ∈ m.layers, startsSha l.digest = true ∧
        alGet store (digestFilename l.digest) = none)
    ∧ ((∀ d ∈ refDigests m, blobPresent store d) →
        (exportModel mc mn pt store none true).out = .ok ∧
        ∃ entries, (exportModel mc mn pt store none true).output = some entries ∧
          ∀ d ∈ refDigests m, ∃ c, alGet store (digestFilename d) = some c ∧
            (digestFilename d, c) ∈ entries) := by
  constructor
  · constructor
    · rintro ⟨fn, hout⟩
      cases hfm : firstMissingSha store m.layers with
      | none =>
        have hall := (firstMissingSha_eq_none_iff store m.layers).mp hfm
        rw [exportModel_none_ok mc m mn pt store hp hall] at hout
        exact absurd hout (by simp)
      | some fn' =>
        rw [exportModel_none_fail mc m mn pt store fn' true hp hfm] at hout
        have : fn' = fn := by simpa using hout
        subst this
        rcases firstMissingSha_mem store m.layers fn' hfm with ⟨l, hl, h1, h2, h3⟩
        exact ⟨l, hl, h1, h2 ▸ h3⟩
    · rintro ⟨l, hl, hsha, hnone⟩
      cases hfm : firstMissingSha store m.layers with
      | none =>
        have hall := (firstMissingSha_eq_none_iff store m.layers).mp hfm
        have := hall l hl hsha
        rw [hnone] at this
        simp at this
      | some fn' =>
        refine ⟨fn', ?_⟩
        rw [exportModel_none_fail mc m mn pt store fn' true hp hfm]
  · intro hpres
    have hall : allShaPresent store m.layers := by
      intro l hl hsha
      exact (hpres l.digest (List.mem_cons_of_mem _
        (List.mem_map_of_mem _ hl))).2
    rw [exportModel_none_ok mc m mn pt store hp hall]
    refine ⟨rfl, archiveEntries mc mn pt store m, rfl, ?_⟩
    intro d hd
    have hbp := hpres d hd
    cases hc : alGet store (digestFilename d) with
    | none =>
      have hx := hbp.2
      rw [hc] at hx
      simp at hx
    | some c =>
      refine ⟨c, rfl, ?_⟩
      have hmem : digestFilename d ∈
          shaNames m.layers ++ configNames store m.config := by
        rcases List.mem_cons.mp hd with rfl | hd'
        · apply List.mem_append_right
          unfold configNames
          rw [if_pos (by rw [Bool.and_eq_true_iff]; exact ⟨hbp.1, hbp.2⟩)]
          exact List.mem_singleton.mpr rfl
        · apply List.mem_append_left
          rcases List.mem_map.mp hd' with ⟨l, hl, rfl⟩
          apply List.mem_map_of_mem
          exact List.mem_filter.mpr ⟨hl, hbp.1⟩
      have : blobEntry store (digestFilename d) = (digestFilename d, c) := by
        unfold blobEntry
        rw [hc]
        rfl
      unfold archiveEntries
      apply List.mem_cons_of_mem
      apply List.mem_cons_of_mem
      rw [← this]
      exact List.mem_map_of_mem _ hmem

/-- C1 counterexample to the claim as stated: a manifest whose config digest
is `sha256:`-prefixed but whose config blob is absent from the blobs
directory.  Export succeeds (outcome `ok`, not `BlobMissing`) and the archive
holds no blob file for the referenced config digest — only `metadata.json`
and the manifest copy. -/
theorem C1_counterexample :
    (exportModel (Content.manifestJson
        { config := { digest := "sha256:cc", size := 4 }, layers := [] })
        "alpha" "7b" [] none true).out = ExOutcome.ok ∧
    startsSha "sha256:cc" = true ∧
    alGet ([] : FileMap) "sha256-cc" = none ∧
    (exportModel (Content.manifestJson
        { config := { digest := "sha256:cc", size := 4 }, layers := [] })
        "alpha" "7b" [] none true).output =
      some [("metadata.json", Content.metaJson (some "alpha") (some "7b")),
            ("manifest", Content.manifestJson
              { config := { digest := "sha256:cc", size := 4 }, layers := [] })] := by
  decide

/-- Witness for C1: at a concrete manifest (one layer, a config, both blobs
present) the amended theorem yields a successful export whose archive
carries both referenced blobs. -/
theorem C1_export_blobMissing_iff_witness :
    (exportModel (Content.manifestJson
        { config := { digest := "sha256:cc", size := 4 },
          layers := [{ digest := "sha256:aa", size := 8 }] })
        "alpha" "7b"
        [("sha256-aa", Content.bytes [1]), ("sha256-cc", Content.bytes [2])]
        none true).out = ExOutcome.ok := by
  exact (C1_export_blobMissing_iff (Content.manifestJson
      { config := { digest := "sha256:cc", size := 4 },
        layers := [{ digest := "sha256:aa", size := 8 }] })
      { config := { digest := "sha256:cc", size := 4 },
        layers := [{ digest := "sha256:aa", size := 8 }] }
      "alpha" "7b"
      [("sha256-aa", Content.bytes [1]), ("sha256-cc", Content.bytes [2])]
      rfl).2 (by decide) |>.1

/-! ### Claim C4 -/

/-- C4 (amended): the export stages (and archives) the referenced blobs layer
blobs first, in manifest order, and the config blob last — not config
first. -/
theorem C4_staging_order (mc : Content) (m : Manifest) (mn pt : String)
    (store : FileMap) (hp : parseManifest mc = some m)
    (hall : allShaPresent store m.layers) :
    ∃ entries, (exportModel mc mn pt store none true).output = some entries ∧
      entries.map Prod.fst =
        "metadata.json" :: "manifest" ::
          (shaNames m.layers ++ configNames store m.config) := by
  rw [exportModel_none_ok mc m mn pt store hp hall]
  refine ⟨_, rfl, ?_⟩
  unfold archiveEntries
  simp only [List.map_cons]
  rw [keys_map_blobEntry]

/-- C4 counterexample to the claim as stated: with config blob `sha256-cc`
and a single layer blob `sha256-aa`, the archive's staged blob order is the
layer first and the config last, so the config blob is not staged first. -/
theorem C4_counterexample :
    digestFilename "sha256:aa" = "sha256-aa" ∧
    digestFilename "sha256:cc" = "sha256-cc" ∧
    ((exportModel (Content.manifestJson
        { config := { digest := "sha256:cc", size := 4 },
          layers := [{ digest := "sha256:aa", size := 8 }] })
        "alpha" "7b"
        [("sha256-aa", Content.bytes [1]), ("sha256-cc", Content.bytes [2])]
        none true).output).map (List.map Prod.fst) =
      some ["metadata.json", "manifest", "sha256-aa", "sha256-cc"] ∧
    "sha256-aa" ≠ "sha256-cc" := by decide

/-- Witness for C4 at a concrete manifest with one layer and a config. -/
theorem C4_staging_order_witness :
    ∃ entries, (exportModel (Content.manifestJson
        { config := { digest := "sha256:cc", size := 4 },
          layers := [{ digest := "sha256:aa", size := 8 }] })
        "alpha" "7b"
        [("sha256-aa", Content.bytes [1]), ("sha256-cc", Content.bytes [2])]
        none true).output = some entries ∧
      entries.map Prod.fst =
        "metadata.json" :: "manifest" ::
          (shaNames [{ digest := "sha256:aa", size := 8 }] ++
            configNames
              [("sha256-aa", Content.bytes [1]), ("sha256-cc", Content.bytes [2])]
              { digest := "sha256:cc", size := 4 }) :=
  C4_staging_order (Content.manifestJson
      { config := { digest := "sha256:cc", size := 4 },
        layers := [{ digest := "sha256:aa", size := 8 }] })
    { config := { digest := "sha256:cc", size := 4 },
      layers := [{ digest := "sha256:aa", size := 8 }] }
    "alpha" "7b"
    [("sha256-aa", Content.bytes [1]), ("sha256-cc", Content.bytes [2])]
    rfl (by decide)

/-! ### Split-string lemmas for name inference -/

theorem splitOnChar_ne_nil (sep : Char) (cs : List Char) :
    splitOnChar sep cs ≠ [] := by
  cases cs with
  | nil => simp [splitOnChar]
  | cons c rest =>
    rw [splitOnChar]
    by_cases h : c == sep
    · simp [h]
    · simp only [h, Bool.false_eq_true, if_false]
      cases splitOnChar sep rest <;> simp

theorem getLastD_congr {α : Type} (l : List α) (d d' : α) (h : l ≠ []) :
    l.getLastD d = l.getLastD d' := by
  cases l with
  | nil => exact absurd rfl h
  | cons a l => rw [List.getLastD_cons, List.getLastD_cons]

theorem splitOnChar_snoc (sep : Char) (cs : List Char) (c : Char) :
    splitOnChar sep (cs ++ [c]) =
      if c == sep then splitOnChar sep cs ++ [[]]
      else (splitOnChar sep cs).dropLast ++
        [(splitOnChar sep cs).getLastD [] ++ [c]] := by
  induction cs with
  | nil =>
    by_cases h : c == sep
    · simp [splitOnChar, h]
    · simp [splitOnChar, h]
  | cons c0 cs ih =>
    rw [List.cons_append, splitOnChar, splitOnChar]
    by_cases h0 : c0 == sep
    · rw [if_pos h0, if_pos h0, ih]
      by_cases h : c == sep
      · rw [if_pos h, if_pos h, List.cons_append]
      · rw [if_neg h, if_neg h,
          List.dropLast_cons_of_ne_nil (splitOnChar_ne_nil sep cs),
          List.getLastD_cons,
          getLastD_congr _ [] [] (splitOnChar_ne_nil sep cs), List.cons_append]
    · rw [if_neg h0, if_neg h0, ih]
      cases hr : splitOnChar sep cs with
      | nil => exact absurd hr (splitOnChar_ne_nil sep cs)
      | cons h0l t0 =>
        by_cases h : c == sep
        · rw [if_pos h, if_pos h]
          simp only [List.cons_append]
        · rw [if_neg h, if_neg h]
          cases t0 with
          | nil =>
            simp [List.getLastD_cons]
          | cons t1 t2 =>
            simp only [List.dropLast_cons₂, List.cons_append,
              List.getLastD_cons]

theorem splitOnChar_getLastD (sep : Char) (cs : List Char) :
    (splitOnChar sep cs).getLastD [] =
      (cs.reverse.takeWhile (fun c => !(c == sep))).reverse := by
  induction cs using List.reverseRecOn with
  | nil => rfl
  | append_singleton cs c ih =>
    rw [splitOnChar_snoc, List.reverse_append, List.reverse_singleton,
      List.singleton_append, List.takeWhile_cons]
    by_cases h : c == sep
    · rw [if_pos h]
      simp only [h, Bool.not_true, Bool.false_eq_true, if_false,
        List.reverse_nil]
      exact List.getLastD_concat _ _ _
    · rw [if_neg h]
      simp only [h, Bool.not_false, if_true, Bool.false_eq_true]
      rw [List.getLastD_concat, ih, List.reverse_cons]

theorem splitOnChar_headD (sep : Char) (cs : List Char) :
    (splitOnChar sep cs).headD [] = cs.takeWhile (fun c => !(c == sep)) := by
  induction cs with
  | nil => rfl
  | cons c rest ih =>
    rw [splitOnChar, List.takeWhile_cons]
    by_cases h : c == sep
    · simp [h]
    · simp only [h, Bool.false_eq_true, if_false, Bool.not_false, if_true]
      cases hr : splitOnChar sep rest with
      | nil => exact absurd hr (splitOnChar_ne_nil sep rest)
      | cons hh tt =>
        rw [hr] at ih
        simp only [List.headD_cons] at ih ⊢
        rw [ih]

theorem splitOnChar_length_gt_one (sep : Char) (cs : List Char) :
    ((splitOnChar sep cs).length > 1) ↔ cs.any (fun c => c == sep) = true := by
  induction cs with
  | nil => simp [splitOnChar]
  | cons c rest ih =>
    rw [splitOnChar, List.any_cons]
    by_cases h : c == sep
    · simp only [h, if_true, Bool.true_or, List.length_cons, iff_true]
      have := List.length_pos.mpr (splitOnChar_ne_nil sep rest)
      omega
    · simp only [h, Bool.false_eq_true, if_false, Bool.false_or]
      cases hr : splitOnChar sep rest with
      | nil => exact absurd hr (splitOnChar_ne_nil sep rest)
      | cons hh tt =>
        rw [hr] at ih
        simpa using ih

/-! ### Claim C5 -/

/-- Spec-side description: the stem's segment before the first hyphen. -/
def upToFirstDash (s : String) : String :=
  String.mk (s.toList.takeWhile fun c => !(c == '-'))

/-- Spec-side description: the stem's segment after the last hyphen. -/
def afterLastDash (s : String) : String :=
  String.mk (s.toList.reverse.takeWhile (fun c => !(c == '-'))).reverse

/-- Does the stem contain a hyphen at all? -/
def hasDash (s : String) : Bool := s.toList.any fun c => c == '-'

/-- C5 (amended): with no custom name and no usable metadata, the destination
is inferred from the archive stem by hyphen-splitting — the model name is the
segment **before the first hyphen** (not everything before the last hyphen)
and the tag is the segment after the last hyphen; a hyphen-free stem maps to
`(stem, "default")`.  The spec's own examples (`"alpha-7b"`, `"alpha"`)
hold. -/
theorem C5_name_inference (metaName metaTag custom : Option String)
    (stem : String) (hcustom : falsy custom = true)
    (hmeta : falsy metaName = true ∨ falsy metaTag = true) :
    determineDest metaName metaTag custom stem =
      (if hasDash stem then (upToFirstDash stem, afterLastDash stem)
       else (stem, "default"))
    ∧ determineDest metaName metaTag custom "alpha-7b" = ("alpha", "7b")
    ∧ determineDest metaName metaTag custom "alpha" = ("alpha", "default") := by
  have hbranch : ∀ s : String, determineDest metaName metaTag custom s =
      (if hasDash s then (upToFirstDash s, afterLastDash s)
       else (s, "default")) := by
    intro s
    unfold determineDest
    rw [if_neg (by rw [hcustom]; simp)]
    rw [if_pos (by rcases hmeta with h | h <;> simp [h])]
    unfold splitStr hasDash upToFirstDash afterLastDash
    by_cases hd : s.toList.any (fun c => c == '-')
    · rw [if_pos hd, if_pos]
      · rw [Prod.mk.injEq]
        have h1 := splitOnChar_headD '-' s.toList
        have h2 := splitOnChar_getLastD '-' s.toList
        constructor
        · cases hsp2 : splitOnChar '-' s.toList with
          | nil => exact absurd hsp2 (splitOnChar_ne_nil '-' s.toList)
          | cons p ps =>
            rw [hsp2] at h1
            simp only [List.headD_cons] at h1
            simp only [List.map_cons, List.headD_cons, h1]
        · rw [show ("" : String) = String.mk [] from rfl,
            List.getLastD_map String.mk (splitOnChar '-' s.toList) [], h2]
      · rw [List.length_map]
        exact (splitOnChar_length_gt_one '-' s.toList).mpr hd
    · rw [if_neg hd, if_neg]
      rw [List.length_map]
      intro hc
      exact hd ((splitOnChar_length_gt_one '-' s.toList).mp hc)
  exact ⟨hbranch stem, by rw [hbranch]; decide, by rw [hbranch]; decide⟩

/-- C5 counterexample to the claim as stated: the stem `"my-model-7b"` —
splitting on the **last** hyphen would give `("my-model", "7b")`, but the
code takes `parts[0]`, yielding `("my", "7b")`. -/
theorem C5_counterexample :
    determineDest none none none "my-model-7b" = ("my", "7b") ∧
    ("my", "7b") ≠ ("my-model", "7b") := by
  constructor
  · rfl
  · decide

/-- Witness for C5 at the concrete stem `"beta-13b"` with absent metadata. -/
theorem C5_name_inference_witness :
    determineDest none none none "beta-13b" =
      (if hasDash "beta-13b"
       then (upToFirstDash "beta-13b", afterLastDash "beta-13b")
       else ("beta-13b", "default")) :=
  (C5_name_inference none none none "beta-13b" rfl (Or.inl rfl)).1

/-! ### The export trace under an always-continuing callback -/

/-- The callback reports the layer loop makes, with the percentages the code
computes (`(current_size / total_size) * 100`). -/
def layerTrace (store : FileMap) (total : Nat) : List Layer → Nat → List ExCheck
  | [], _ => []
  | l :: ls, cur =>
    if startsSha l.digest then
      match alGet store (digestFilename l.digest) with
      | some _ =>
        ExCheck.copyBlob (digestFilename l.digest)
            ((cur : Rat) * 100 / (total : Rat)) ::
          ExCheck.copiedBlob (digestFilename l.digest)
            (((cur + l.size : Nat) : Rat) * 100 / (total : Rat)) ::
          layerTrace store total ls (cur + l.size)
      | none => []
    else layerTrace store total ls cur

/-- The callback reports of the config step. -/
def configTrace (store : FileMap) (total : Nat) (cfg : ConfigRef) (cur : Nat) :
    List ExCheck :=
  if startsSha cfg.digest then
    match alGet store (digestFilename cfg.digest) with
    | some _ =>
      [ExCheck.copyBlob (digestFilename cfg.digest)
          ((cur : Rat) * 100 / (total : Rat)),
        ExCheck.copiedBlob (digestFilename cfg.digest)
          (((cur + cfg.size : Nat) : Rat) * 100 / (total : Rat))]
    | none => []
  else []

theorem copyLayers_true_ok (store : FileMap) (f : Nat → Bool) (total : Nat)
    (ls : List Layer) (st : ExSt) (hf : ∀ j, f j = true) (htot : total ≠ 0)
    (hall : allShaPresent store ls) :
    copyLayers store (some f) total ls st = .inr
      { temp := alSetAll st.temp (stagePairs store ls),
        blobFiles := st.blobFiles ++ shaNames ls,
        current := st.current + shaSize ls,
        k := st.k + 2 * (shaLayers ls).length,
        trace := st.trace ++ layerTrace store total ls st.current } := by
  induction ls generalizing st with
  | nil =>
    simp [copyLayers, stagePairs, shaNames, shaLayers, shaSize, alSetAll,
      layerTrace]
  | cons l ls ih =>
    rw [copyLayers, layerTrace]
    by_cases hsha : startsSha l.digest
    · have hp := hall l (List.mem_cons_self _ _) hsha
      cases hc : alGet store (digestFilename l.digest) with
      | none => rw [hc] at hp; simp at hp
      | some c =>
        simp only [hsha, if_true, hc, if_neg htot, hf, if_true]
        rw [ih _ (fun l' hl' hs' => hall l' (List.mem_cons_of_mem _ hl') hs')]
        have e1 : stagePairs store (l :: ls) =
            (digestFilename l.digest, c) :: stagePairs store ls := by
          simp [stagePairs, shaNames, shaLayers, hsha, hc, blobEntry]
        have e2 : shaNames (l :: ls) = digestFilename l.digest :: shaNames ls := by
          simp [shaNames, shaLayers, hsha]
        have e3 : shaSize (l :: ls) = l.size + shaSize ls := by
          simp [shaSize, shaLayers, hsha]
        have e4 : shaLayers (l :: ls) = l :: shaLayers ls := by
          simp [shaLayers, hsha]
        rw [e1, e2, e3, e4, alSetAll_cons]
        congr 1
        simp only [List.length_cons, List.cons_append, List.append_assoc,
          ExSt.mk.injEq]
        refine ⟨trivial, by simp, by omega, by omega, by simp⟩
    · simp only [hsha, if_false, Bool.false_eq_true]
      rw [ih _ (fun l' hl' hs' => hall l' (List.mem_cons_of_mem _ hl') hs')]
      have e1 : stagePairs store (l :: ls) = stagePairs store ls := by
        simp [stagePairs, shaNames, shaLayers, hsha]
      have e2 : shaNames (l :: ls) = shaNames ls := by
        simp [shaNames, shaLayers, hsha]
      have e3 : shaSize (l :: ls) = shaSize ls := by
        simp [shaSize, shaLayers, hsha]
      have e4 : shaLayers (l :: ls) = shaLayers ls := by
        simp [shaLayers, hsha]
      rw [e1, e2, e3, e4]

theorem copyConfig_true (store : FileMap) (f : Nat → Bool) (total : Nat)
    (cfg : ConfigRef) (st : ExSt) (hf : ∀ j, f j = true) (htot : total ≠ 0) :
    copyConfig store (some f) total cfg st = .inr
      { temp := alSetAll st.temp (configPairs store cfg),
        blobFiles := st.blobFiles ++ configNames store cfg,
        current := st.current +
          (if (configNames store cfg).isEmpty then 0 else cfg.size),
        k := st.k + (configTrace store total cfg st.current).length,
        trace := st.trace ++ configTrace store total cfg st.current } := by
  rw [copyConfig, configTrace]
  by_cases hsha : startsSha cfg.digest
  · rw [if_pos hsha, if_pos hsha]
    cases hc : alGet store (digestFilename cfg.digest) with
    | none =>
      have e1 : configNames store cfg = [] := by simp [configNames, hsha, hc]
      simp [e1, configPairs, alSetAll, hc]
    | some c =>
      have e1 : configNames store cfg = [digestFilename cfg.digest] := by
        simp [configNames, hsha, hc]
      simp only [if_neg htot, hf, if_true]
      simp [e1, configPairs, blobEntry, alSetAll, hc]
  · rw [if_neg hsha, if_neg hsha]
    have e1 : configNames store cfg = [] := by simp [configNames, hsha]
    simp [e1, configPairs, alSetAll]

theorem addFiles_true (f : Nat → Bool) (temp : FileMap) (fns : List String)
    (acc : List (String × Content)) (k : Nat) (tr : List ExCheck)
    (hf : ∀ j, f j = true) :
    addFiles (some f) temp fns acc k tr =
      .inr (acc ++ fns.map (blobEntry temp), k + fns.length,
        tr ++ fns.map ExCheck.addingFile) := by
  induction fns generalizing acc k tr with
  | nil => simp [addFiles]
  | cons fn fns ih =>
    rw [addFiles]
    simp only [hf, if_true]
    rw [ih]
    simp [blobEntry, List.append_assoc]
    omega

theorem exportModel_true_trace (mc : Content) (m : Manifest) (mn pt : String)
    (store : FileMap) (f : Nat → Bool) (hf : ∀ j, f j = true)
    (hp : parseManifest mc = some m) (htot : totalSize m ≠ 0)
    (hall : allShaPresent store m.layers) :
    (exportModel mc mn pt store (some f) true).trace =
      layerTrace store (totalSize m) m.layers 0 ++
        configTrace store (totalSize m) m.config (shaSize m.layers) ++
        [ExCheck.creatingArchive] ++
        ((shaNames m.layers ++ configNames store m.config).map
          ExCheck.addingFile) ++
        [ExCheck.complete] := by
  have haf : ∀ (temp : FileMap) fns acc k tr,
      addFiles (some f) temp fns acc k tr =
        .inr (acc ++ fns.map (blobEntry temp), k + fns.length,
          tr ++ fns.map ExCheck.addingFile) :=
    fun temp fns acc k tr => addFiles_true f temp fns acc k tr hf
  unfold exportModel
  rw [hp]
  simp only [copyLayers_true_ok store f (totalSize m) m.layers _ hf htot hall,
    copyConfig_true store f (totalSize m) m.config _ hf htot, hf, if_true,
    haf]
  simp [List.append_assoc]

/-! ### Claim C6 -/

/-- The percentages of the blob-copy reports in a trace (the before- and
after-copy checkpoints; archive-phase and completion reports excluded). -/
def blobPcts : List ExCheck → List Rat
  | [] => []
  | ExCheck.copyBlob _ p :: tr => p :: blobPcts tr
  | ExCheck.copiedBlob _ p :: tr => p :: blobPcts tr
  | ExCheck.creatingArchive :: tr => blobPcts tr
  | ExCheck.addingFile _ :: tr => blobPcts tr
  | ExCheck.complete :: tr => blobPcts tr

/-- Spec-side formula for the layer-loop percentages: for each copied blob,
`bytesCopiedSoFar / totalBytes` scaled by 100 (a 0-100 scale), reported once
before and once after the copy. -/
def layerPctsSpec (store : FileMap) (total : Nat) : List Layer → Nat → List Rat
  | [], _ => []
  | l :: ls, cur =>
    if startsSha l.digest then
      if (alGet store (digestFilename l.digest)).isSome then
        ((cur : Rat) / (total : Rat)) * 100 ::
          (((cur + l.size : Nat) : Rat) / (total : Rat)) * 100 ::
          layerPctsSpec store total ls (cur + l.size)
      else []
    else layerPctsSpec store total ls cur

/-- Spec-side formula for the config-step percentages. -/
def configPctsSpec (store : FileMap) (total : Nat) (cfg : ConfigRef)
    (cur : Nat) : List Rat :=
  if startsSha cfg.digest && (alGet store (digestFilename cfg.digest)).isSome then
    [((cur : Rat) / (total : Rat)) * 100,
      (((cur + cfg.size : Nat) : Rat) / (total : Rat)) * 100]
  else []

theorem blobPcts_append (tr1 tr2 : List ExCheck) :
    blobPcts (tr1 ++ tr2) = blobPcts tr1 ++ blobPcts tr2 := by
  induction tr1 with
  | nil => rfl
  | cons cp tr ih =>
    cases cp <;> simp [blobPcts, ih]

theorem blobPcts_addingFiles (fns : List String) :
    blobPcts (fns.map ExCheck.addingFile) = [] := by
  induction fns with
  | nil => rfl
  | cons fn fns ih => simp [blobPcts, ih]

theorem blobPcts_layerTrace (store : FileMap) (total : Nat) (ls : List Layer)
    (cur : Nat) :
    blobPcts (layerTrace store total ls cur) = layerPctsSpec store total ls cur := by
  induction ls generalizing cur with
  | nil => rfl
  | cons l ls ih =>
    rw [layerTrace, layerPctsSpec]
    by_cases hsha : startsSha l.digest
    · rw [if_pos hsha, if_pos hsha]
      cases hc : alGet store (digestFilename l.digest) with
      | none => simp [hc, blobPcts]
      | some c =>
        simp only [hc, Option.isSome_some, if_true, blobPcts, ih]
        simp only [mul_div_right_comm]
    · rw [if_neg hsha, if_neg hsha, ih]

theorem blobPcts_configTrace (store : FileMap) (total : Nat) (cfg : ConfigRef)
    (cur : Nat) :
    blobPcts (configTrace store total cfg cur) =
      configPctsSpec store total cfg cur := by
  rw [configTrace, configPctsSpec]
  by_cases hsha : startsSha cfg.digest
  · rw [if_pos hsha]
    cases hc : alGet store (digestFilename cfg.digest) with
    | none => simp [hc, blobPcts]
    | some c =>
      simp only [hc, Option.isSome_some, hsha, Bool.true_and, if_true,
        blobPcts]
      simp only [mul_div_right_comm]
  · rw [if_neg hsha]
    simp [hsha, blobPcts]

/-- C6 (amended): every progress percentage the blob-copy phase reports (once
before and once after each blob copy) equals `bytesCopiedSoFar / totalBytes`
scaled by 100 — a 0-100 scale, **not** capped at 95 — layers first, then the
config blob, so the final post-copy report reaches 100. -/
theorem C6_progress_formula (mc : Content) (m : Manifest) (mn pt : String)
    (store : FileMap) (f : Nat → Bool) (hf : ∀ j, f j = true)
    (hp : parseManifest mc = some m) (htot : totalSize m ≠ 0)
    (hall : allShaPresent store m.layers) :
    blobPcts (exportModel mc mn pt store (some f) true).trace =
      layerPctsSpec store (totalSize m) m.layers 0 ++
        configPctsSpec store (totalSize m) m.config (shaSize m.layers) := by
  rw [exportModel_true_trace mc m mn pt store f hf hp htot hall]
  simp only [blobPcts_append, blobPcts_addingFiles, blobPcts_layerTrace,
    blobPcts_configTrace]
  simp [blobPcts]

/-- C6 counterexample to the claim as stated: one layer of 8 bytes with its
blob present and no sha-prefixed config; the post-copy checkpoint reports
exactly 100, above the claimed 95 cap. -/
theorem C6_counterexample :
    (exportModel (Content.manifestJson
        { config := { digest := "", size := 0 },
          layers := [{ digest := "sha256:aa", size := 8 }] })
        "alpha" "7b" [("sha256-aa", Content.bytes [1])]
        (some fun _ => true) true).trace =
      [ExCheck.copyBlob "sha256-aa" 0, ExCheck.copiedBlob "sha256-aa" 100,
        ExCheck.creatingArchive, ExCheck.addingFile "sha256-aa",
        ExCheck.complete] ∧
    ¬ ((100 : Rat) ≤ 95) := by
  have h1 : startsSha "sha256:aa" = true := by decide
  have h2 : startsSha "" = false := by decide
  have h3 : digestFilename "sha256:aa" = "sha256-aa" := by decide
  constructor
  · rw [exportModel_true_trace (Content.manifestJson
        { config := { digest := "", size := 0 },
          layers := [{ digest := "sha256:aa", size := 8 }] })
      { config := { digest := "", size := 0 },
        layers := [{ digest := "sha256:aa", size := 8 }] }
      "alpha" "7b" [("sha256-aa", Content.bytes [1])]
      (fun _ => true) (fun _ => rfl) rfl (by decide) (by decide)]
    simp only [layerTrace, configTrace, h1, h2, h3, if_true, if_false,
      Bool.false_eq_true, totalSize, shaSize, shaLayers, shaNames,
      configNames, alGet, List.filter, List.map]
    norm_num
  · norm_num

/-- Witness for C6 at a concrete one-layer manifest. -/
theorem C6_progress_formula_witness :
    blobPcts (exportModel (Content.manifestJson
        { config := { digest := "", size := 0 },
          layers := [{ digest := "sha256:aa", size := 8 }] })
        "alpha" "7b" [("sha256-aa", Content.bytes [1])]
        (some fun _ => true) true).trace =
      layerPctsSpec [("sha256-aa", Content.bytes [1])] 8
        [{ digest := "sha256:aa", size := 8 }] 0 ++
        configPctsSpec [("sha256-aa", Content.bytes [1])] 8
          { digest := "", size := 0 } 8 := by
  have h := C6_progress_formula (Content.manifestJson
      { config := { digest := "", size := 0 },
        layers := [{ digest := "sha256:aa", size := 8 }] })
      { config := { digest := "", size := 0 },
        layers := [{ digest := "sha256:aa", size := 8 }] }
      "alpha" "7b" [("sha256-aa", Content.bytes [1])]
      (fun _ => true) (fun _ => rfl) rfl (by decide) (by decide)
  exact h

/-! ### Scan membership -/

/-- The scan result lists variant `(mn, pt)`. -/
def HasVar (models : List (String × List Variant)) (mn pt : String) : Prop :=
  ∃ vs, (mn, vs) ∈ models ∧ ∃ v ∈ vs, v.paramSize = pt

/-- The library holds a well-formed variant `(mn, pt)`: a model directory
named `mn` with an entry `pt` whose manifest resolves and parses. -/
def GoodVariant (lib : Library) (mn pt : String) : Prop :=
  ∃ md, (mn, LibEntry.dir md) ∈ lib ∧ ∃ e, (pt, e) ∈ md ∧
    ((resolveManifestFile pt e).bind parseManifest).isSome = true

theorem alGet_some_mem {α : Type} (m : List (String × α)) (k : String) (v : α)
    (h : alGet m k = some v) : (k, v) ∈ m := by
  induction m with
  | nil => simp at h
  | cons p m ih =>
    rw [alGet_cons] at h
    by_cases hk : k = p.1
    · rw [if_pos hk] at h
      rcases Option.some_injective _ h with rfl
      rw [hk]
      exact List.mem_cons_self _ _
    · rw [if_neg hk] at h
      exact List.mem_cons_of_mem _ (ih h)

theorem hasVar_dictAdd (ms : List (String × List Variant)) (mn : String)
    (v : Variant) (mn' pt : String) :
    HasVar (dictAdd ms mn v) mn' pt ↔
      HasVar ms mn' pt ∨ (mn' = mn ∧ v.paramSize = pt) := by
  unfold dictAdd
  by_cases hs : (alGet ms mn).isSome
  · rw [if_pos hs]
    constructor
    · rintro ⟨vs, hmem, w, hw, hps⟩
      rcases List.mem_map.mp hmem with ⟨p, hp, he⟩
      by_cases hk : p.1 = mn
      · rw [if_pos hk] at he
        rcases he
        rcases List.mem_append.mp hw with hw1 | hw1
        · exact Or.inl ⟨p.2, hp, w, hw1, hps⟩
        · rcases List.mem_singleton.mp hw1 with rfl
          exact Or.inr ⟨hk, hps⟩
      · rw [if_neg hk] at he
        rcases he
        exact Or.inl ⟨vs, hp, w, hw, hps⟩
    · rintro (⟨vs, hmem, w, hw, hps⟩ | ⟨rfl, hps⟩)
      · by_cases hk : mn' = mn
        · refine ⟨vs ++ [v], ?_, w, List.mem_append_left _ hw, hps⟩
          have he : (fun p => if p.1 = mn then (p.1, p.2 ++ [v]) else p)
              (mn', vs) = (mn', vs ++ [v]) := by
            simp [hk]
          exact he ▸ List.mem_map_of_mem _ hmem
        · refine ⟨vs, ?_, w, hw, hps⟩
          have he : (fun p => if p.1 = mn then (p.1, p.2 ++ [v]) else p)
              (mn', vs) = (mn', vs) := by
            simp [hk]
          exact he ▸ List.mem_map_of_mem _ hmem
      · rcases Option.isSome_iff_exists.mp hs with ⟨vs0, hvs0⟩
        refine ⟨vs0 ++ [v], ?_, v, List.mem_append_right _ (by simp), hps⟩
        have he : (fun p => if p.1 = mn' then (p.1, p.2 ++ [v]) else p)
            (mn', vs0) = (mn', vs0 ++ [v]) := by simp
        exact he ▸ List.mem_map_of_mem _ (alGet_some_mem ms mn' vs0 hvs0)
  · rw [if_neg hs]
    constructor
    · rintro ⟨vs, hmem, w, hw, hps⟩
      rcases List.mem_append.mp hmem with h1 | h1
      · exact Or.inl ⟨vs, h1, w, hw, hps⟩
      · rw [List.mem_singleton, Prod.mk.injEq] at h1
        obtain ⟨rfl, rfl⟩ := h1
        rcases List.mem_singleton.mp hw with rfl
        exact Or.inr ⟨rfl, hps⟩
    · rintro (⟨vs, hmem, w, hw, hps⟩ | ⟨rfl, hps⟩)
      · exact ⟨vs, List.mem_append_left _ hmem, w, hw, hps⟩
      · exact ⟨[v], List.mem_append_right _ (by simp), v, by simp, hps⟩

theorem hasVar_foldl_dictAdd (vs : List Variant)
    (ms : List (String × List Variant)) (mn mn' pt : String) :
    HasVar (vs.foldl (fun acc v => dictAdd acc mn v) ms) mn' pt ↔
      HasVar ms mn' pt ∨ (mn' = mn ∧ ∃ v ∈ vs, v.paramSize = pt) := by
  induction vs generalizing ms with
  | nil => simp
  | cons v vs ih =>
    rw [List.foldl_cons, ih, hasVar_dictAdd]
    constructor
    · rintro ((h | ⟨rfl, h⟩) | ⟨rfl, w, hw, hps⟩)
      · exact Or.inl h
      · exact Or.inr ⟨rfl, v, by simp, h⟩
      · exact Or.inr ⟨rfl, w, List.mem_cons_of_mem _ hw, hps⟩
    · rintro (h | ⟨rfl, w, hw, hps⟩)
      · exact Or.inl (Or.inl h)
      · rcases List.mem_cons.mp hw with rfl | hw1
        · exact Or.inl (Or.inr ⟨rfl, hps⟩)
        · exact Or.inr ⟨rfl, w, hw1, hps⟩

theorem mem_scanDir (md : ModelDir) (pt : String) :
    (∃ v ∈ scanDir md, v.paramSize = pt) ↔
      ∃ e, (pt, e) ∈ md ∧
        ((resolveManifestFile pt e).bind parseManifest).isSome = true := by
  constructor
  · rintro ⟨v, hv, hps⟩
    rcases List.mem_filterMap.mp hv with ⟨p, hp, hsome⟩
    cases hb : (resolveManifestFile p.1 p.2).bind parseManifest with
    | none =>
      rw [hb] at hsome
      exact absurd hsome (by simp)
    | some mm =>
      rw [hb] at hsome
      simp only [Option.map_some'] at hsome
      rcases Option.some_injective _ hsome with rfl
      have hp1 : p.1 = pt := hps
      refine ⟨p.2, ?_, ?_⟩
      · rw [← hp1]
        exact hp
      · rw [← hp1, hb]
        rfl
  · rintro ⟨e, hmem, hsome⟩
    rcases Option.isSome_iff_exists.mp hsome with ⟨mm, hb⟩
    refine ⟨⟨pt, (layerSum mm : Rat) / ((1024 : Rat) ^ 3)⟩, ?_, rfl⟩
    apply List.mem_filterMap.mpr
    refine ⟨(pt, e), hmem, ?_⟩
    rw [hb]
    rfl

theorem scanStep_file (ms : List (String × List Variant)) (n : String)
    (c : Content) : scanStep ms (n, LibEntry.file c) = ms := rfl

theorem scanStep_dir (ms : List (String × List Variant)) (n : String)
    (md : ModelDir) :
    scanStep ms (n, LibEntry.dir md) =
      (scanDir md).foldl (fun acc v => dictAdd acc n v) ms := rfl

theorem hasVar_scan_aux (lib : Library) (ms : List (String × List Variant))
    (mn pt : String) :
    HasVar (lib.foldl scanStep ms) mn pt ↔
      HasVar ms mn pt ∨ GoodVariant lib mn pt := by
  induction lib generalizing ms with
  | nil =>
    simp only [List.foldl_nil]
    unfold GoodVariant
    simp
  | cons q lib ih =>
    rw [List.foldl_cons, ih]
    have hgood : GoodVariant (q :: lib) mn pt ↔
        ((∃ md, q = (mn, LibEntry.dir md) ∧ ∃ e, (pt, e) ∈ md ∧
          ((resolveManifestFile pt e).bind parseManifest).isSome = true) ∨
          GoodVariant lib mn pt) := by
      unfold GoodVariant
      constructor
      · rintro ⟨md, hmem, he⟩
        rcases List.mem_cons.mp hmem with h1 | h1
        · exact Or.inl ⟨md, h1.symm, he⟩
        · exact Or.inr ⟨md, h1, he⟩
      · rintro (⟨md, rfl, he⟩ | ⟨md, hmem, he⟩)
        · exact ⟨md, List.mem_cons_self _ _, he⟩
        · exact ⟨md, List.mem_cons_of_mem _ hmem, he⟩
    rw [hgood]
    rcases q with ⟨n, e⟩
    cases e with
    | file c =>
      rw [scanStep_file]
      constructor
      · rintro (h | h)
        · exact Or.inl h
        · exact Or.inr (Or.inr h)
      · rintro (h | (⟨md, hq, _⟩ | h))
        · exact Or.inl h
        · simp at hq
        · exact Or.inr h
    | dir md =>
      rw [scanStep_dir, hasVar_foldl_dictAdd]
      constructor
      · rintro ((h | ⟨heq, hv⟩) | h)
        · exact Or.inl h
        · exact Or.inr (Or.inl ⟨md, by rw [heq], (mem_scanDir md pt).mp hv⟩)
        · exact Or.inr (Or.inr h)
      · rintro (h | (⟨md', he, hgood'⟩ | h))
        · exact Or.inl (Or.inl h)
        · rw [Prod.mk.injEq] at he
          obtain ⟨heq, he2⟩ := he
          injection he2 with he3
          subst he3
          exact Or.inl (Or.inr ⟨heq.symm, (mem_scanDir md pt).mpr hgood'⟩)
        · exact Or.inr h

/-! ### Claim C7 -/

/-- C7 (confirmed): the scan lists a variant `(mn, pt)` exactly when the
library holds a model directory `mn` with an entry `pt` whose manifest file
resolves and parses as JSON.  In particular a variant whose manifest fails
parsing is omitted while every other parseable variant — in the same model
directory or elsewhere — is still listed, and the scan itself is a total
function: one malformed manifest never aborts it. -/
theorem C7_scan_iff (lib : Library) (mn pt : String) :
    HasVar (scan lib) mn pt ↔ GoodVariant lib mn pt := by
  rw [show scan lib = lib.foldl scanStep [] from rfl, hasVar_scan_aux]
  unfold HasVar
  simp

/-- Witness for C7: a library with one parseable variant and one malformed
one; the parseable variant is listed. -/
theorem C7_scan_iff_witness :
    HasVar (scan [("alpha", LibEntry.dir
      [("7b", TagEntry.file (Content.manifestJson
          { config := { digest := "sha256:cc", size := 4 },
            layers := [{ digest := "sha256:aa", size := 8 }] })),
        ("bad", TagEntry.file (Content.bytes [9]))])]) "alpha" "7b" :=
  (C7_scan_iff [("alpha", LibEntry.dir
      [("7b", TagEntry.file (Content.manifestJson
          { config := { digest := "sha256:cc", size := 4 },
            layers := [{ digest := "sha256:aa", size := 8 }] })),
        ("bad", TagEntry.file (Content.bytes [9]))])] "alpha" "7b").mpr
    ⟨[("7b", TagEntry.file (Content.manifestJson
        { config := { digest := "sha256:cc", size := 4 },
          layers := [{ digest := "sha256:aa", size := 8 }] })),
      ("bad", TagEntry.file (Content.bytes [9]))],
      by decide,
      TagEntry.file (Content.manifestJson
        { config := { digest := "sha256:cc", size := 4 },
          layers := [{ digest := "sha256:aa", size := 8 }] }),
      by decide, by decide⟩

theorem mem_alGet_isSome {α : Type} (m : List (String × α)) (k : String)
    (v : α) (h : (k, v) ∈ m) : (alGet m k).isSome = true := by
  induction m with
  | nil => simp at h
  | cons p m ih =>
    rw [alGet_cons]
    by_cases hk : k = p.1
    · rw [if_pos hk]; rfl
    · rw [if_neg hk]
      rcases List.mem_cons.mp h with h1 | h1
      · rw [Prod.mk.injEq] at h1
        exact absurd h1.1 hk
      · exact ih h1

theorem mem_alSet_same_key {α : Type} (m : List (String × α)) (k : String)
    (v x : α) (h : (k, x) ∈ alSet m k v) : x = v := by
  unfold alSet at h
  by_cases hs : (alGet m k).isSome
  · rw [if_pos hs] at h
    rcases List.mem_map.mp h with ⟨p, hp, he⟩
    by_cases hk : p.1 = k
    · rw [if_pos hk] at he
      rw [Prod.mk.injEq] at he
      exact he.2.symm
    · rw [if_neg hk] at he
      rcases he
      exact absurd rfl hk
  · rw [if_neg hs] at h
    rcases List.mem_append.mp h with h1 | h1
    · exact absurd (mem_alGet_isSome m k x h1) (by simpa using hs)
    · rw [List.mem_singleton, Prod.mk.injEq] at h1
      exact h1.2

theorem deleteModel_ok_shape (mn pt : String) (lib : Library) (store : FileMap)
    (cb : Option (Nat → Bool))
    (h : (deleteModel mn pt lib store cb).out = .ok) :
    ∃ md c m, alGet lib mn = some (LibEntry.dir md) ∧
      alGet md pt = some (TagEntry.file c) ∧ parseManifest c = some m ∧
      (deleteModel mn pt lib store cb).lib =
        (if (alErase md pt).isEmpty then alErase lib mn
         else alSet lib mn (LibEntry.dir (alErase md pt))) := by
  cases hlib : alGet lib mn with
  | none =>
    simp only [deleteModel, hlib] at h
    exact DelOutcome.noConfusion h
  | some e0 =>
    cases e0 with
    | file c0 =>
      simp only [deleteModel, hlib] at h
      exact DelOutcome.noConfusion h
    | dir md =>
      refine ⟨md, ?_⟩
      cases hmd : alGet md pt with
      | none =>
        simp only [deleteModel, hlib, hmd] at h
        exact DelOutcome.noConfusion h
      | some entry =>
        cases entry with
        | dir sub =>
          cases cb with
          | none =>
            simp only [deleteModel, hlib, hmd] at h
            exact DelOutcome.noConfusion h
          | some f =>
            by_cases hf : f 0 <;>
              simp only [deleteModel, hlib, hmd, hf, if_true,
                Bool.false_eq_true, if_false] at h <;>
              exact DelOutcome.noConfusion h
        | file c =>
          refine ⟨c, ?_⟩
          cases hpm : parseManifest c with
          | none =>
            cases cb with
            | none =>
              simp only [deleteModel, hlib, hmd, hpm] at h
              exact DelOutcome.noConfusion h
            | some f =>
              by_cases hf : f 0 <;>
                simp only [deleteModel, hlib, hmd, hf, hpm, if_true,
                  Bool.false_eq_true, if_false] at h <;>
                exact DelOutcome.noConfusion h
          | some m =>
            refine ⟨m, rfl, rfl, rfl, ?_⟩
            cases cb with
            | none =>
              cases hdb : deleteBlobs none
                  ((collectDigests m).map digestFilename) store 0 with
              | inl s1 =>
                simp only [deleteModel, hlib, hmd, hpm, hdb] at h
                exact DelOutcome.noConfusion h
              | inr sk =>
                by_cases hemp : (alErase md pt).isEmpty <;>
                  simp [deleteModel, hlib, hmd, hpm, hdb, hemp]
            | some f =>
              by_cases hf0 : f 0
              · by_cases hf1 : f 1
                · cases hdb : deleteBlobs (some f)
                      ((collectDigests m).map digestFilename) store 2 with
                  | inl s1 =>
                    simp only [deleteModel, hlib, hmd, hpm, hf0, hf1, hdb,
                      if_true] at h
                    exact DelOutcome.noConfusion h
                  | inr sk =>
                    rcases sk with ⟨s1, k3⟩
                    by_cases hf3 : f k3
                    · by_cases hemp : (alErase md pt).isEmpty <;>
                        simp [deleteModel, hlib, hmd, hpm, hf0, hf1, hdb,
                          hf3, hemp]
                    · simp only [deleteModel, hlib, hmd, hpm, hf0, hf1, hdb,
                        hf3, if_true, Bool.false_eq_true, if_false] at h
                      exact DelOutcome.noConfusion h
                · simp only [deleteModel, hlib, hmd, hpm, hf0, hf1, if_true,
                    Bool.false_eq_true, if_false] at h
                  exact DelOutcome.noConfusion h
              · simp only [deleteModel, hlib, hmd, hpm, hf0,
                  Bool.false_eq_true, if_false] at h
                exact DelOutcome.noConfusion h

theorem mem_dictAdd_key (ms : List (String × List Variant)) (mn : String)
    (v : Variant) (mn' : String) (vs : List Variant)
    (h : (mn', vs) ∈ dictAdd ms mn v) :
    (∃ vs0, (mn', vs0) ∈ ms) ∨ mn' = mn := by
  unfold dictAdd at h
  by_cases hs : (alGet ms mn).isSome
  · rw [if_pos hs] at h
    rcases List.mem_map.mp h with ⟨p, hp, he⟩
    by_cases hk : p.1 = mn
    · rw [if_pos hk] at he
      rw [Prod.mk.injEq] at he
      exact Or.inr (he.1.symm.trans hk)
    · rw [if_neg hk] at he
      rcases he
      exact Or.inl ⟨vs, hp⟩
  · rw [if_neg hs] at h
    rcases List.mem_append.mp h with h1 | h1
    · exact Or.inl ⟨vs, h1⟩
    · rw [List.mem_singleton, Prod.mk.injEq] at h1
      exact Or.inr h1.1

theorem mem_foldl_dictAdd_key (ws : List Variant)
    (ms : List (String × List Variant)) (n mn : String) (vs : List Variant)
    (h : (mn, vs) ∈ ws.foldl (fun acc v => dictAdd acc n v) ms) :
    (∃ vs0, (mn, vs0) ∈ ms) ∨ mn = n := by
  induction ws generalizing ms vs with
  | nil => exact Or.inl ⟨vs, h⟩
  | cons w ws ih =>
    rw [List.foldl_cons] at h
    rcases ih _ _ h with ⟨vs0, h0⟩ | h0
    · exact (mem_dictAdd_key ms n w mn vs0 h0).imp id id
    · exact Or.inr h0

theorem scan_key_aux (lib : Library) (ms : List (String × List Variant))
    (mn : String) (vs : List Variant) (h : (mn, vs) ∈ lib.foldl scanStep ms) :
    (∃ vs0, (mn, vs0) ∈ ms) ∨ ∃ md, (mn, LibEntry.dir md) ∈ lib := by
  induction lib generalizing ms vs with
  | nil => exact Or.inl ⟨vs, h⟩
  | cons q lib ih =>
    rw [List.foldl_cons] at h
    rcases ih _ _ h with ⟨vs0, h0⟩ | ⟨md, h0⟩
    · rcases q with ⟨n, e⟩
      cases e with
      | file c =>
        rw [scanStep_file] at h0
        exact Or.inl ⟨vs0, h0⟩
      | dir md =>
        rw [scanStep_dir] at h0
        rcases mem_foldl_dictAdd_key _ _ _ _ _ h0 with ⟨vs1, h1⟩ | h1
        · exact Or.inl ⟨vs1, h1⟩
        · exact Or.inr ⟨md, h1 ▸ List.mem_cons_self _ _⟩
    · exact Or.inr ⟨md, List.mem_cons_of_mem _ h0⟩

/-- The manifest file installed for variant `(mn, pt)`, when one exists as a
plain file at the canonical path. -/
def variantManifest (lib : Library) (mn pt : String) : Option Content :=
  match alGet lib mn with
  | some (.dir md) =>
    match alGet md pt with
    | some (.file c) => some c
    | _ => none
  | _ => none

/-! ### Claim C8 -/

/-- C8 (amended): after `delete(name, tag)` succeeds, the variant's manifest
file is gone and a subsequent scan lists no variant `(name, tag)`; if the
manifest was the **only entry** in the model directory (no other files *or
subdirectories*), the directory itself is removed and `name` is absent from
the scan result.  (A leftover non-variant entry, such as a stray
subdirectory, keeps the directory alive — the emptiness check counts every
entry, not just variant files.) -/
theorem C8_delete_effects (mn pt : String) (lib : Library) (store : FileMap)
    (cb : Option (Nat → Bool))
    (hndl : (lib.map Prod.fst).Nodup)
    (hnd : ∀ md, alGet lib mn = some (LibEntry.dir md) →
      (md.map Prod.fst).Nodup)
    (h : (deleteModel mn pt lib store cb).out = .ok) :
    variantManifest (deleteModel mn pt lib store cb).lib mn pt = none ∧
    ¬ HasVar (scan (deleteModel mn pt lib store cb).lib) mn pt ∧
    (∀ e, alGet lib mn = some (LibEntry.dir [(pt, e)]) →
      alGet (deleteModel mn pt lib store cb).lib mn = none ∧
      ∀ vs, (mn, vs) ∉ scan (deleteModel mn pt lib store cb).lib) := by
  obtain ⟨md, c, m, hlib, hmd, hpm, hres⟩ :=
    deleteModel_ok_shape mn pt lib store cb h
  have hmdnd : (md.map Prod.fst).Nodup := hnd md hlib
  have herased : alGet (alErase md pt) pt = none :=
    alGet_alErase_self md pt hmdnd
  refine ⟨?_, ?_, ?_⟩
  · rw [hres]
    by_cases hemp : (alErase md pt).isEmpty
    · rw [if_pos hemp]
      unfold variantManifest
      simp only [alGet_alErase_self lib mn hndl]
    · rw [if_neg hemp]
      unfold variantManifest
      simp only [alGet_alSet_same, herased]
  · intro hv
    rw [hres] at hv
    set lib' := (if (alErase md pt).isEmpty then alErase lib mn
      else alSet lib mn (LibEntry.dir (alErase md pt))) with hlib'
    have hg : GoodVariant lib' mn pt := by
      rw [show scan lib' = lib'.foldl scanStep [] from rfl] at hv
      rcases (hasVar_scan_aux lib' [] mn pt).mp hv with h0 | h0
      · rcases h0 with ⟨vs, hvs, _⟩
        simp at hvs
      · exact h0
    rcases hg with ⟨md', hmem', e, he, _⟩
    by_cases hemp : (alErase md pt).isEmpty
    · rw [hlib', if_pos hemp] at hmem'
      have hsome := mem_alGet_isSome _ _ _ hmem'
      rw [alGet_alErase_self lib mn hndl] at hsome
      simp at hsome
    · rw [hlib', if_neg hemp] at hmem'
      have heq := mem_alSet_same_key _ _ _ _ hmem'
      injection heq with heq2
      subst heq2
      have hsome := mem_alGet_isSome _ _ _ he
      rw [herased] at hsome
      simp at hsome
  · intro e he
    rw [hlib] at he
    injection he with he1
    injection he1 with he2
    subst he2
    have hemp : (alErase [(pt, e)] pt).isEmpty = true := by
      rw [alErase, if_pos rfl]
      rfl
    rw [hres, if_pos hemp]
    refine ⟨alGet_alErase_self lib mn hndl, ?_⟩
    intro vs hvs
    rcases scan_key_aux _ _ _ _ hvs with ⟨vs0, h0⟩ | ⟨md'', h0⟩
    · simp at h0
    · have hsome := mem_alGet_isSome _ _ _ h0
      rw [alGet_alErase_self lib mn hndl] at hsome
      simp at hsome

/-- A model directory with two variant files, used to witness C8. -/
def c8Md : ModelDir :=
  [("7b", TagEntry.file (Content.manifestJson
      { config := { digest := "sha256:cc", size := 4 },
        layers := [{ digest := "sha256:aa", size := 8 }] })),
    ("13b", TagEntry.file (Content.manifestJson
      { config := { digest := "sha256:dd", size := 2 }, layers := [] }))]

/-- A library with one model directory, used to witness C8. -/
def c8Lib : Library := [("alpha", LibEntry.dir c8Md)]

/-- C8 counterexample to the claim as stated: the model directory holds the
variant file `7b` and a stray empty subdirectory `junk`.  `(alpha, 7b)` is
the only variant *file*, yet after a successful delete the model directory
still exists (the emptiness check sees the subdirectory), contradicting the
claimed directory removal. -/
theorem C8_counterexample :
    deleteModel "alpha" "7b"
        [("alpha", LibEntry.dir
          [("7b", TagEntry.file (Content.manifestJson
              { config := { digest := "sha256:cc", size := 4 },
                layers := [{ digest := "sha256:aa", size := 8 }] })),
            ("junk", TagEntry.dir [])])]
        [] none =
      { out := DelOutcome.ok,
        lib := [("alpha", LibEntry.dir [("junk", TagEntry.dir [])])],
        store := [] } ∧
    alGet [("alpha", LibEntry.dir [("junk", TagEntry.dir [])])] "alpha" ≠
      none := by
  decide

/-- Witness for C8: deleting one of two variants removes its manifest file. -/
theorem C8_delete_effects_witness :
    variantManifest (deleteModel "alpha" "7b" c8Lib [] none).lib
      "alpha" "7b" = none := by
  have hnd : ∀ md, alGet c8Lib "alpha" = some (LibEntry.dir md) →
      (md.map Prod.fst).Nodup := by
    intro md hmd
    have h0 : alGet c8Lib "alpha" = some (LibEntry.dir c8Md) := by decide
    rw [h0] at hmd
    injection hmd with h1
    injection h1 with h2
    rw [← h2]
    decide
  exact (C8_delete_effects "alpha" "7b" c8Lib [] none (by decide) hnd
    (by decide)).1

/-! ### Import of an exported archive -/

theorem alGet_stage_meta (mc : Content) (mn pt : String) (store : FileMap)
    (names : List String)
    (hns : ∀ fn ∈ names, fn ≠ "metadata.json" ∧ fn ≠ "manifest") :
    alGet (alSetAll (exportTemp0 mc mn pt) (names.map (blobEntry store)))
        "metadata.json" = some (Content.metaJson (some mn) (some pt)) := by
  rw [alGet_alSetAll_notMem _ _ _
    (by rw [keys_map_blobEntry]; exact fun hc => ((hns _ hc).1) rfl)]
  unfold exportTemp0
  rw [alGet_alSet_ne _ _ _ _ (by decide), alGet_alSet_same]

theorem alGet_stage_manifest (mc : Content) (mn pt : String) (store : FileMap)
    (names : List String)
    (hns : ∀ fn ∈ names, fn ≠ "metadata.json" ∧ fn ≠ "manifest") :
    alGet (alSetAll (exportTemp0 mc mn pt) (names.map (blobEntry store)))
        "manifest" = some mc := by
  rw [alGet_alSetAll_notMem _ _ _
    (by rw [keys_map_blobEntry]; exact fun hc => ((hns _ hc).2) rfl)]
  unfold exportTemp0
  rw [alGet_alSet_same]

theorem alGet_stage_blob (mc : Content) (mn pt : String) (store : FileMap)
    (names : List String) (fn : String) (hfn : fn ∈ names) :
    alGet (alSetAll (exportTemp0 mc mn pt) (names.map (blobEntry store))) fn =
      some ((alGet store fn).getD (Content.bytes [])) := by
  apply alGet_alSetAll_uniform
  · rw [keys_map_blobEntry]; exact hfn
  · intro w hw
    exact uniform_map_blobEntry store names fn w hw

theorem importLayers_none_ok (temp : FileMap) (ls : List Layer)
    (store : FileMap) (k : Nat) (hall : allShaPresent temp ls) :
    importLayers temp none ls store k =
      .inr (alSetAll store (stagePairs temp ls), k) := by
  induction ls generalizing store with
  | nil => simp [importLayers, stagePairs, shaNames, shaLayers, alSetAll]
  | cons l ls ih =>
    rw [importLayers]
    by_cases hsha : startsSha l.digest
    · have hp := hall l (List.mem_cons_self _ _) hsha
      cases hc : alGet temp (digestFilename l.digest) with
      | none => rw [hc] at hp; simp at hp
      | some c =>
        simp only [hsha, if_true, hc]
        rw [ih _ (fun l' hl' hs' => hall l' (List.mem_cons_of_mem _ hl') hs')]
        have e1 : stagePairs temp (l :: ls) =
            (digestFilename l.digest, c) :: stagePairs temp ls := by
          simp [stagePairs, shaNames, shaLayers, hsha, hc, blobEntry]
        rw [e1, alSetAll_cons]
    · simp only [hsha, if_false, Bool.false_eq_true]
      rw [ih _ (fun l' hl' hs' => hall l' (List.mem_cons_of_mem _ hl') hs')]
      have e1 : stagePairs temp (l :: ls) = stagePairs temp ls := by
        simp [stagePairs, shaNames, shaLayers, hsha]
      rw [e1]

theorem determineDest_meta (mn pt : String) (stem : String) (hmn : mn ≠ "")
    (hpt : pt ≠ "") :
    determineDest (some mn) (some pt) none stem = (mn, pt) := by
  unfold determineDest
  rw [if_neg (by simp [falsy])]
  rw [if_neg (by
    simp only [falsy, Bool.or_eq_true, beq_iff_eq]
    rintro (h | h)
    · exact hmn h
    · exact hpt h)]
  rfl

theorem variantManifest_libInstall (lib : Library) (mn pt : String)
    (mc : Content)
    (hfree : alGet lib mn = none ∨ ∃ md, alGet lib mn = some (LibEntry.dir md)
      ∧ ∀ sub, alGet md pt ≠ some (TagEntry.dir sub)) :
    variantManifest (libInstall lib mn pt mc) mn pt = some mc := by
  unfold libInstall variantManifest
  rcases hfree with hnone | ⟨md, hdir, hnodir⟩
  · have h1 : alGet (lib ++ [(mn, LibEntry.dir [(pt, TagEntry.file mc)])]) mn
        = some (LibEntry.dir [(pt, TagEntry.file mc)]) := by
      rw [alGet_append_right _ _ _ hnone, alGet_cons, if_pos rfl]
    have h2 : alGet [(pt, TagEntry.file mc)] pt = some (TagEntry.file mc) := by
      rw [alGet_cons, if_pos rfl]
    simp only [hnone, h1, h2]
  · cases hmd : alGet md pt with
    | none =>
      simp only [hdir, hmd, alGet_alSet_same]
    | some e =>
      cases e with
      | file c0 => simp only [hdir, hmd, alGet_alSet_same]
      | dir sub => exact absurd hmd (hnodir sub)

/-! ### Claim C2 -/

/-- C2 (confirmed): exporting a manifest whose referenced blobs are all
present and importing the resulting archive (no custom name) succeeds,
installs at the destination variant a manifest byte-identical to the
exported one, and leaves every referenced blob byte-identical under the
destination blobs directory to the corresponding source blob.  (The
destination model name and tag come from the archive's metadata; the
hypotheses ask them to be non-empty — Python truthiness — and the
destination variant path not to be blocked by an existing directory or a
stray file, conditions any real repository satisfies.) -/
theorem C2_round_trip (mc : Content) (m : Manifest) (mn pt : String)
    (srcStore : FileMap) (destLib : Library) (destStore : FileMap)
    (stem : String) (hp : parseManifest mc = some m)
    (hall : ∀ d ∈ refDigests m, blobPresent srcStore d)
    (hmn : mn ≠ "") (hpt : pt ≠ "")
    (hfree : alGet destLib mn = none ∨
      ∃ md, alGet destLib mn = some (LibEntry.dir md) ∧
        ∀ sub, alGet md pt ≠ some (TagEntry.dir sub)) :
    ∃ entries, (exportModel mc mn pt srcStore none true).output = some entries
      ∧ (importModel entries stem none destLib destStore none).out = .ok
      ∧ variantManifest (importModel entries stem none destLib destStore none).lib
          mn pt = some mc
      ∧ ∀ d ∈ refDigests m,
          alGet (importModel entries stem none destLib destStore none).store
              (digestFilename d) =
            alGet srcStore (digestFilename d) := by
  have hallSha : allShaPresent srcStore m.layers := by
    intro l hl hsha
    exact (hall l.digest (List.mem_cons_of_mem _ (List.mem_map_of_mem _ hl))).2
  refine ⟨archiveEntries mc mn pt srcStore m, ?_, ?_⟩
  · rw [exportModel_none_ok mc m mn pt srcStore hp hallSha]
  set names := shaNames m.layers ++ configNames srcStore m.config with hnames
  set tempE := alSetAll ([] : FileMap) (archiveEntries mc mn pt srcStore m)
    with htempE
  have htemp : tempE = alSetAll (exportTemp0 mc mn pt)
      (names.map (blobEntry srcStore)) := by
    rw [htempE]
    unfold archiveEntries
    rw [alSetAll_cons, alSetAll_cons]
    rfl
  have hns : ∀ fn ∈ names, fn ≠ "metadata.json" ∧ fn ≠ "manifest" := by
    intro fn hfn
    rcases mem_blobNames_sha srcStore m fn (hnames ▸ hfn) with ⟨d, hd, rfl⟩
    exact ⟨digestFilename_ne_metadata d hd, digestFilename_ne_manifest d hd⟩
  have hm_man : alGet tempE "manifest" = some mc := by
    rw [htemp]; exact alGet_stage_manifest mc mn pt srcStore names hns
  have hm_meta : alGet tempE "metadata.json" =
      some (Content.metaJson (some mn) (some pt)) := by
    rw [htemp]; exact alGet_stage_meta mc mn pt srcStore names hns
  have hm_blob : ∀ fn ∈ names, alGet tempE fn =
      some ((alGet srcStore fn).getD (Content.bytes [])) := by
    intro fn hfn
    rw [htemp]; exact alGet_stage_blob mc mn pt srcStore names fn hfn
  have hcbp := hall m.config.digest (List.mem_cons_self _ _)
  have hcfgnames : configNames srcStore m.config =
      [digestFilename m.config.digest] := by
    unfold configNames
    rw [if_pos (by rw [Bool.and_eq_true_iff]; exact ⟨hcbp.1, hcbp.2⟩)]
  have hcfgmem : digestFilename m.config.digest ∈ names := by
    rw [hnames, hcfgnames]
    exact List.mem_append_right _ (List.mem_singleton.mpr rfl)
  have hlayermem : ∀ l ∈ m.layers, startsSha l.digest = true →
      digestFilename l.digest ∈ names := by
    intro l hl hsha
    rw [hnames]
    apply List.mem_append_left
    exact List.mem_map_of_mem _ (List.mem_filter.mpr ⟨hl, hsha⟩)
  have hallTemp : allShaPresent tempE m.layers := by
    intro l hl hsha
    rw [hm_blob _ (hlayermem l hl hsha)]
    rfl
  have hctemp : alGet tempE (digestFilename m.config.digest) =
      some ((alGet srcStore (digestFilename m.config.digest)).getD
        (Content.bytes [])) := hm_blob _ hcfgmem
  have himpl : ∀ (store : FileMap) (k : Nat),
      importLayers tempE none m.layers store k =
        .inr (alSetAll store (stagePairs tempE m.layers), k) :=
    fun store k => importLayers_none_ok tempE m.layers store k hallTemp
  have himp : importModel (archiveEntries mc mn pt srcStore m) stem none
      destLib destStore none =
      { out := .ok, lib := libInstall destLib mn pt mc,
        store := alSetAll (alSet destStore (digestFilename m.config.digest)
          ((alGet srcStore (digestFilename m.config.digest)).getD
            (Content.bytes [])))
          (stagePairs tempE m.layers),
        temp := none } := by
    rcases hfree with hnone | ⟨md, hdir, _⟩
    · simp only [importModel, ← htempE, hm_man, hp, hm_meta, parseMeta,
        determineDest_meta mn pt stem hmn hpt, hnone, hcbp.1, if_true,
        hctemp, himpl]
    · simp only [importModel, ← htempE, hm_man, hp, hm_meta, parseMeta,
        determineDest_meta mn pt stem hmn hpt, hdir, hcbp.1, if_true,
        hctemp, himpl]
  rw [himp]
  refine ⟨rfl, variantManifest_libInstall destLib mn pt mc hfree, ?_⟩
  intro d hd
  have hbp := hall d hd
  rcases Option.isSome_iff_exists.mp hbp.2 with ⟨v, hv⟩
  have hmem : digestFilename d ∈ names := by
    rcases List.mem_cons.mp hd with rfl | hd'
    · exact hcfgmem
    · rcases List.mem_map.mp hd' with ⟨l, hl, rfl⟩
      exact hlayermem l hl hbp.1
  have hval : (alGet tempE (digestFilename d)).getD (Content.bytes []) = v := by
    rw [hm_blob _ hmem, hv]
    rfl
  rw [stagePairs_eq_map]
  by_cases hln : digestFilename d ∈ shaNames m.layers
  · rw [alGet_alSetAll_uniform _ _ _
      ((alGet tempE (digestFilename d)).getD (Content.bytes []))
      (by rw [keys_map_blobEntry]; exact hln)
      (fun w hw => uniform_map_blobEntry tempE _ _ w hw)]
    rw [hval, hv]
  · have hdc : d = m.config.digest := by
      rcases List.mem_cons.mp hd with h0 | hd'
      · exact h0
      · rcases List.mem_map.mp hd' with ⟨l, hl, rfl⟩
        exact absurd
          (List.mem_map_of_mem _ (List.mem_filter.mpr ⟨hl, hbp.1⟩)) hln
    subst hdc
    rw [alGet_alSetAll_notMem _ _ _
      (by rw [keys_map_blobEntry]; exact hln), alGet_alSet_same, hv]
    rfl

/-- Witness for C2 at a concrete one-layer manifest, importing into an empty
repository. -/
theorem C2_round_trip_witness :
    ∃ entries, (exportModel (Content.manifestJson
        { config := { digest := "sha256:cc", size := 4 },
          layers := [{ digest := "sha256:aa", size := 8 }] })
        "alpha" "7b"
        [("sha256-aa", Content.bytes [1]), ("sha256-cc", Content.bytes [2])]
        none true).output = some entries
      ∧ (importModel entries "x" none [] [] none).out = .ok
      ∧ variantManifest (importModel entries "x" none [] [] none).lib
          "alpha" "7b" = some (Content.manifestJson
            { config := { digest := "sha256:cc", size := 4 },
              layers := [{ digest := "sha256:aa", size := 8 }] })
      ∧ ∀ d ∈ refDigests
          { config := { digest := "sha256:cc", size := 4 },
            layers := [{ digest := "sha256:aa", size := 8 }] },
          alGet (importModel entries "x" none [] [] none).store
              (digestFilename d) =
            alGet [("sha256-aa", Content.bytes [1]),
              ("sha256-cc", Content.bytes [2])] (digestFilename d) :=
  C2_round_trip (Content.manifestJson
      { config := { digest := "sha256:cc", size := 4 },
        layers := [{ digest := "sha256:aa", size := 8 }] })
    { config := { digest := "sha256:cc", size := 4 },
      layers := [{ digest := "sha256:aa", size := 8 }] }
    "alpha" "7b"
    [("sha256-aa", Content.bytes [1]), ("sha256-cc", Content.bytes [2])]
    [] [] "x" rfl (by decide) (by decide) (by decide) (Or.inl rfl)

/-! ### Cancellation invariants of the export run -/

/-- Run bookkeeping: the invocation counter matches the trace length and
every invocation made so far returned `true`. -/
def GoodSt (f : Nat → Bool) (st : ExSt) : Prop :=
  st.k = st.trace.length ∧ ∀ j, j < st.k → f j = true

theorem GoodSt_step2 (f : Nat → Bool) (st : ExSt) (hg : GoodSt f st)
    (tmp : FileMap) (bf : List String) (cur : Nat) (a b : ExCheck)
    (hf0 : f st.k = true) (hf1 : f (st.k + 1) = true) :
    GoodSt f { temp := tmp, blobFiles := bf, current := cur,
               k := st.k + 2, trace := st.trace ++ [a] ++ [b] } := by
  constructor
  · show st.k + 2 = (st.trace ++ [a] ++ [b]).length
    simp only [List.length_append, List.length_singleton]
    rw [hg.1]
  · intro j hj
    have hj' : j < st.k + 2 := hj
    rcases Nat.lt_or_ge j st.k with h2 | h2
    · exact hg.2 j h2
    · rcases Nat.eq_or_lt_of_le h2 with h3 | h3
      · exact h3 ▸ hf0
      · have h4 : j = st.k + 1 := by omega
        rw [h4]
        exact hf1

theorem copyLayers_inv (store : FileMap) (f : Nat → Bool) (total : Nat)
    (ls : List Layer) (st : ExSt) (hg : GoodSt f st) :
    (∀ st', copyLayers store (some f) total ls st = .inr st' → GoodSt f st') ∧
    (∀ r, copyLayers store (some f) total ls st = .inl r →
      (r.out = .cancelled → r.temp = none ∧ r.output = none) ∧
      (r.out ≠ .cancelled → ∀ j,
        (hj : j < r.trace.length) → f j = true)) := by
  induction ls generalizing st with
  | nil =>
    constructor
    · intro st' h
      rw [copyLayers] at h
      injection h with h1
      rw [← h1]
      exact hg
    · intro r h
      rw [copyLayers] at h
      exact Sum.noConfusion h
  | cons l ls ih =>
    constructor
    · intro st' h
      rw [copyLayers] at h
      by_cases hsha : startsSha l.digest
      · simp only [hsha, if_true] at h
        cases hc : alGet store (digestFilename l.digest) with
        | none =>
          rw [hc] at h
          exact Sum.noConfusion h
        | some c =>
          rw [hc] at h
          by_cases htot : total = 0
          · simp only [htot, if_true] at h
            exact Sum.noConfusion h
          · simp only [htot, if_false] at h
            by_cases hf0 : f st.k
            · simp only [hf0, if_true] at h
              by_cases hf1 : f (st.k + 1)
              · simp only [hf1, if_true] at h
                refine (ih _ ?_).1 st' h
                exact GoodSt_step2 f st hg _ _ _ _ _ hf0 hf1
              · simp only [hf1, Bool.false_eq_true, if_false] at h
                exact Sum.noConfusion h
            · simp only [hf0, Bool.false_eq_true, if_false] at h
              exact Sum.noConfusion h
      · simp only [hsha, Bool.false_eq_true, if_false] at h
        exact (ih _ hg).1 st' h
    · intro r h
      rw [copyLayers] at h
      by_cases hsha : startsSha l.digest
      · simp only [hsha, if_true] at h
        cases hc : alGet store (digestFilename l.digest) with
        | none =>
          rw [hc] at h
          injection h with h1
          rw [← h1]
          constructor
          · intro hco
            exact absurd hco (by simp)
          · intro _ j hj
            exact hg.2 j (by rw [hg.1]; exact hj)
        | some c =>
          rw [hc] at h
          by_cases htot : total = 0
          · simp only [htot, if_true] at h
            injection h with h1
            rw [← h1]
            constructor
            · intro hco
              exact absurd hco (by simp)
            · intro _ j hj
              exact hg.2 j (by rw [hg.1]; exact hj)
          · simp only [htot, if_false] at h
            by_cases hf0 : f st.k
            · simp only [hf0, if_true] at h
              by_cases hf1 : f (st.k + 1)
              · simp only [hf1, if_true] at h
                refine (ih _ ?_).2 r h
                exact GoodSt_step2 f st hg _ _ _ _ _ hf0 hf1
              · simp only [hf1, Bool.false_eq_true, if_false] at h
                injection h with h1
                rw [← h1]
                exact ⟨fun _ => ⟨rfl, rfl⟩, fun hne => absurd rfl hne⟩
            · simp only [hf0, Bool.false_eq_true, if_false] at h
              injection h with h1
              rw [← h1]
              exact ⟨fun _ => ⟨rfl, rfl⟩, fun hne => absurd rfl hne⟩
      · simp only [hsha, Bool.false_eq_true, if_false] at h
        exact (ih _ hg).2 r h

theorem copyConfig_inv (store : FileMap) (f : Nat → Bool) (total : Nat)
    (cfg : ConfigRef) (st : ExSt) (hg : GoodSt f st) :
    (∀ st', copyConfig store (some f) total cfg st = .inr st' →
      GoodSt f st') ∧
    (∀ r, copyConfig store (some f) total cfg st = .inl r →
      (r.out = .cancelled → r.temp = none ∧ r.output = none) ∧
      (r.out ≠ .cancelled → ∀ j, j < r.trace.length → f j = true)) := by
  constructor
  · intro st' h
    rw [copyConfig] at h
    by_cases hsha : startsSha cfg.digest
    · simp only [hsha, if_true] at h
      cases hc : alGet store (digestFilename cfg.digest) with
      | none =>
        rw [hc] at h
        injection h with h1
        rw [← h1]
        exact hg
      | some c =>
        rw [hc] at h
        by_cases htot : total = 0
        · simp only [htot, if_true] at h
          exact Sum.noConfusion h
        · simp only [htot, if_false] at h
          by_cases hf0 : f st.k
          · simp only [hf0, if_true] at h
            by_cases hf1 : f (st.k + 1)
            · simp only [hf1, if_true] at h
              injection h with h1
              rw [← h1]
              exact GoodSt_step2 f st hg _ _ _ _ _ hf0 hf1
            · simp only [hf1, Bool.false_eq_true, if_false] at h
              exact Sum.noConfusion h
          · simp only [hf0, Bool.false_eq_true, if_false] at h
            exact Sum.noConfusion h
    · simp only [hsha, Bool.false_eq_true, if_false] at h
      injection h with h1
      rw [← h1]
      exact hg
  · intro r h
    rw [copyConfig] at h
    by_cases hsha : startsSha cfg.digest
    · simp only [hsha, if_true] at h
      cases hc : alGet store (digestFilename cfg.digest) with
      | none =>
        rw [hc] at h
        exact Sum.noConfusion h
      | some c =>
        rw [hc] at h
        by_cases htot : total = 0
        · simp only [htot, if_true] at h
          injection h with h1
          rw [← h1]
          constructor
          · intro hco
            exact absurd hco (by simp)
          · intro _ j hj
            exact hg.2 j (by rw [hg.1]; exact hj)
        · simp only [htot, if_false] at h
          by_cases hf0 : f st.k
          · simp only [hf0, if_true] at h
            by_cases hf1 : f (st.k + 1)
            · simp only [hf1, if_true] at h
              exact Sum.noConfusion h
            · simp only [hf1, Bool.false_eq_true, if_false] at h
              injection h with h1
              rw [← h1]
              exact ⟨fun _ => ⟨rfl, rfl⟩, fun hne => absurd rfl hne⟩
          · simp only [hf0, Bool.false_eq_true, if_false] at h
            injection h with h1
            rw [← h1]
            exact ⟨fun _ => ⟨rfl, rfl⟩, fun hne => absurd rfl hne⟩
    · simp only [hsha, Bool.false_eq_true, if_false] at h
      exact Sum.noConfusion h

theorem addFiles_inv (f : Nat → Bool) (temp : FileMap) (fns : List String)
    (acc : List (String × Content)) (k : Nat) (tr : List ExCheck)
    (hg : k = tr.length ∧ ∀ j, j < k → f j = true) :
    (∀ acc' k' tr', addFiles (some f) temp fns acc k tr =
        .inr (acc', k', tr') →
      k' = tr'.length ∧ ∀ j, j < k' → f j = true) ∧
    (∀ r, addFiles (some f) temp fns acc k tr = .inl r →
      r.out = .cancelled ∧ r.temp = none ∧ r.output = none) := by
  induction fns generalizing acc k tr with
  | nil =>
    constructor
    · intro acc' k' tr' h
      rw [addFiles] at h
      injection h with h1
      rw [Prod.mk.injEq] at h1
      obtain ⟨-, h2⟩ := h1
      rw [Prod.mk.injEq] at h2
      obtain ⟨h3, h4⟩ := h2
      rw [← h3, ← h4]
      exact hg
    · intro r h
      rw [addFiles] at h
      exact Sum.noConfusion h
  | cons fn fns ih =>
    constructor
    · intro acc' k' tr' h
      rw [addFiles] at h
      by_cases hf0 : f k
      · simp only [hf0, if_true] at h
        refine (ih _ _ _ ?_).1 acc' k' tr' h
        refine ⟨by simp [hg.1], ?_⟩
        intro j hj
        have hj' : j < k + 1 := hj
        rcases Nat.lt_or_ge j k with h2 | h2
        · exact hg.2 j h2
        · have h3 : j = k := by omega
          rw [h3]
          exact hf0
      · simp only [hf0, Bool.false_eq_true, if_false] at h
        exact Sum.noConfusion h
    · intro r h
      rw [addFiles] at h
      by_cases hf0 : f k
      · simp only [hf0, if_true] at h
        exact (ih _ _ _ ⟨by simp [hg.1], by
          intro j hj
          have hj' : j < k + 1 := hj
          rcases Nat.lt_or_ge j k with h2 | h2
          · exact hg.2 j h2
          · have h3 : j = k := by omega
            rw [h3]
            exact hf0⟩).2 r h
      · simp only [hf0, Bool.false_eq_true, if_false] at h
        injection h with h1
        rw [← h1]
        exact ⟨rfl, rfl, rfl⟩

theorem exportModel_some_inv (mc : Content) (mn pt : String)
    (store : FileMap) (f : Nat → Bool) (tarOk : Bool) :
    ((exportModel mc mn pt store (some f) tarOk).out = .cancelled →
      (exportModel mc mn pt store (some f) tarOk).temp = none ∧
      (exportModel mc mn pt store (some f) tarOk).output = none) ∧
    ((exportModel mc mn pt store (some f) tarOk).out ≠ .cancelled →
      ∀ j cp,
        (exportModel mc mn pt store (some f) tarOk).trace.get? j = some cp →
        cp ≠ ExCheck.complete → f j = true) := by
  cases hp : parseManifest mc with
  | none =>
    have hres : exportModel mc mn pt store (some f) tarOk =
        { out := .parseError, temp := none, output := none, trace := [] } := by
      simp only [exportModel, hp]
    rw [hres]
    constructor
    · intro h
      exact absurd h (by simp)
    · intro _ j cp hj _
      simp at hj
  | some m =>
    have hg0 : GoodSt f
        { temp := alSet (alSet [] "metadata.json"
            (Content.metaJson (some mn) (some pt))) "manifest" mc,
          blobFiles := [], current := 0, k := 0, trace := [] } :=
      ⟨rfl, by intro j hj; simp at hj⟩
    cases h1 : copyLayers store (some f) (totalSize m) m.layers
        { temp := alSet (alSet [] "metadata.json"
            (Content.metaJson (some mn) (some pt))) "manifest" mc,
          blobFiles := [], current := 0, k := 0, trace := [] } with
    | inl r =>
      have hres : exportModel mc mn pt store (some f) tarOk = r := by
        simp only [exportModel, hp, h1]
      rw [hres]
      have hr := (copyLayers_inv store f (totalSize m) m.layers _ hg0).2 r h1
      refine ⟨hr.1, fun hne j cp hj _ => hr.2 hne j ?_⟩
      rcases List.get?_eq_some.mp hj with ⟨h6, -⟩
      exact h6
    | inr st1 =>
      have hg1 := (copyLayers_inv store f (totalSize m) m.layers _ hg0).1
        st1 h1
      cases h2 : copyConfig store (some f) (totalSize m) m.config st1 with
      | inl r =>
        have hres : exportModel mc mn pt store (some f) tarOk = r := by
          simp only [exportModel, hp, h1, h2]
        rw [hres]
        have hr := (copyConfig_inv store f (totalSize m) m.config st1 hg1).2
          r h2
        refine ⟨hr.1, fun hne j cp hj _ => hr.2 hne j ?_⟩
        rcases List.get?_eq_some.mp hj with ⟨h6, -⟩
        exact h6
      | inr st2 =>
        have hg2 := (copyConfig_inv store f (totalSize m) m.config st1 hg1).1
          st2 h2
        by_cases hf2 : f st2.k
        · have hg3 : st2.k + 1 =
              (st2.trace ++ [ExCheck.creatingArchive]).length ∧
              ∀ j, j < st2.k + 1 → f j = true := by
            refine ⟨by simp [hg2.1], ?_⟩
            intro j hj
            rcases Nat.lt_or_ge j st2.k with h4 | h4
            · exact hg2.2 j h4
            · have h5 : j = st2.k := by omega
              rw [h5]
              exact hf2
          cases htar : tarOk with
          | false =>
            have hres : exportModel mc mn pt store (some f) false =
                { out := .ioError, temp := none, output := none,
                  trace := st2.trace ++ [ExCheck.creatingArchive] } := by
              simp only [exportModel, hp, h1, h2, hf2, if_true,
                Bool.false_eq_true, if_false]
            rw [hres]
            constructor
            · intro h
              exact absurd h (by simp)
            · intro _ j cp hj _
              have hlen : j < (st2.trace ++ [ExCheck.creatingArchive]).length := by
                rcases List.get?_eq_some.mp hj with ⟨h6, -⟩
                exact h6
              exact hg3.2 j (by rw [hg3.1]; exact hlen)
          | true =>
            cases h3 : addFiles (some f) st2.temp st2.blobFiles
                [("metadata.json",
                   (alGet st2.temp "metadata.json").getD (Content.bytes [])),
                 ("manifest",
                   (alGet st2.temp "manifest").getD (Content.bytes []))]
                (st2.k + 1) (st2.trace ++ [ExCheck.creatingArchive]) with
            | inl r =>
              have hres : exportModel mc mn pt store (some f) true = r := by
                simp only [exportModel, hp, h1, h2, hf2, if_true, h3]
              rw [hres]
              have hr := (addFiles_inv f st2.temp st2.blobFiles _ _ _ hg3).2
                r h3
              exact ⟨fun _ => ⟨hr.2.1, hr.2.2⟩, fun hne => absurd hr.1 hne⟩
            | inr trip =>
              rcases trip with ⟨entries, k4, tr4⟩
              have hg4 := (addFiles_inv f st2.temp st2.blobFiles _ _ _ hg3).1
                entries k4 tr4 h3
              have hres : exportModel mc mn pt store (some f) true =
                  { out := .ok, temp := none, output := some entries,
                    trace := tr4 ++ [ExCheck.complete] } := by
                simp only [exportModel, hp, h1, h2, hf2, if_true, h3]
              rw [hres]
              constructor
              · intro h
                exact absurd h (by simp)
              · intro _ j cp hj hcp
                have hlen : j < tr4.length + 1 := by
                  rcases List.get?_eq_some.mp hj with ⟨h6, -⟩
                  simpa using h6
                rcases Nat.lt_or_ge j tr4.length with h4 | h4
                · exact hg4.2 j (by rw [hg4.1]; exact h4)
                · have h5 : j = tr4.length := by omega
                  rw [h5, List.get?_concat_length] at hj
                  exact absurd (Option.some_injective _ hj).symm hcp
        · have hres : exportModel mc mn pt store (some f) tarOk =
              { out := .cancelled, temp := none, output := none,
                trace := st2.trace ++ [ExCheck.creatingArchive] } := by
            simp only [exportModel, hp, h1, h2, hf2, Bool.false_eq_true,
              if_false]
          rw [hres]
          exact ⟨fun _ => ⟨rfl, rfl⟩, fun hne => absurd rfl hne⟩

/-- C3: for every export run with a progress callback and every checkpoint at
which the callback returns false — i.e. every callback invocation recorded in
the trace other than the final `complete` report, whose continue-flag the
source ignores — export returns the cancelled outcome and afterwards neither
the temporary working directory nor the output archive file exists on disk
(lines 164-240 of `export_model`). -/
theorem C3_cancellation_cleanup (mc : Content) (mn pt : String)
    (store : FileMap) (f : Nat → Bool) (tarOk : Bool) (j : Nat)
    (cp : ExCheck)
    (hj : (exportModel mc mn pt store (some f) tarOk).trace.get? j = some cp)
    (hcp : cp ≠ ExCheck.complete) (hf : f j = false) :
    (exportModel mc mn pt store (some f) tarOk).out = .cancelled ∧
    (exportModel mc mn pt store (some f) tarOk).temp = none ∧
    (exportModel mc mn pt store (some f) tarOk).output = none := by
  have hinv := exportModel_some_inv mc mn pt store f tarOk
  by_cases h : (exportModel mc mn pt store (some f) tarOk).out = .cancelled
  · exact ⟨h, (hinv.1 h).1, (hinv.1 h).2⟩
  · have := hinv.2 h j cp hj hcp
    rw [hf] at this
    exact absurd this (by simp)

/-- Witness for C3: a one-layer export whose callback denies continuation at
the third checkpoint (the pre-archive report) returns cancelled with no temp
directory and no output file. -/
theorem C3_cancellation_cleanup_witness :
    (exportModel (Content.manifestJson
        { config := { digest := "", size := 0 },
          layers := [{ digest := "sha256:aa", size := 8 }] })
        "alpha" "7b" [("sha256-aa", Content.bytes [1])]
        (some (fun j => decide (j < 2))) true).out = .cancelled ∧
    (exportModel (Content.manifestJson
        { config := { digest := "", size := 0 },
          layers := [{ digest := "sha256:aa", size := 8 }] })
        "alpha" "7b" [("sha256-aa", Content.bytes [1])]
        (some (fun j => decide (j < 2))) true).temp = none ∧
    (exportModel (Content.manifestJson
        { config := { digest := "", size := 0 },
          layers := [{ digest := "sha256:aa", size := 8 }] })
        "alpha" "7b" [("sha256-aa", Content.bytes [1])]
        (some (fun j => decide (j < 2))) true).output = none :=
  C3_cancellation_cleanup (Content.manifestJson
      { config := { digest := "", size := 0 },
        layers := [{ digest := "sha256:aa", size := 8 }] })
    "alpha" "7b" [("sha256-aa", Content.bytes [1])]
    (fun j => decide (j < 2)) true 2 ExCheck.creatingArchive
    (by decide) (by decide) (by decide)

/-- C3 counterexample to the claim as stated over all checkpoints: the final
`progress_callback(100, "Export complete")` call (line 236) discards the
returned continue-flag, so a callback returning false there still yields a
successful export with the archive on disk. -/
theorem C3_counterexample :
    (exportModel (Content.manifestJson
        { config := { digest := "", size := 0 },
          layers := [{ digest := "sha256:aa", size := 8 }] })
        "alpha" "7b" [("sha256-aa", Content.bytes [1])]
        (some (fun j => decide (j < 4))) true).out = ExOutcome.ok ∧
    (exportModel (Content.manifestJson
        { config := { digest := "", size := 0 },
          layers := [{ digest := "sha256:aa", size := 8 }] })
        "alpha" "7b" [("sha256-aa", Content.bytes [1])]
        (some (fun j => decide (j < 4))) true).output.isSome = true ∧
    (exportModel (Content.manifestJson
        { config := { digest := "", size := 0 },
          layers := [{ digest := "sha256:aa", size := 8 }] })
        "alpha" "7b" [("sha256-aa", Content.bytes [1])]
        (some (fun j => decide (j < 4))) true).trace.get? 4 =
      some ExCheck.complete ∧
    decide (4 < 4) = false := by
  refine ⟨?_, ?_, ?_, by decide⟩ <;> rfl

/-! ### Claim C9: non-`sha256:` digests are skipped everywhere -/

theorem collectDigests_sha (m : Manifest) (d : String)
    (h : d ∈ collectDigests m) : startsSha d = true := by
  unfold collectDigests at h
  rcases List.mem_append.mp h with h1 | h1
  · by_cases hc : startsSha m.config.digest
    · rw [if_pos hc] at h1
      rcases List.mem_singleton.mp h1 with rfl
      exact hc
    · rw [if_neg hc] at h1
      simp at h1
  · rcases List.mem_map.mp h1 with ⟨l, hl, rfl⟩
    exact (List.mem_filter.mp hl).2

theorem collectDigests_mem_ref (m : Manifest) (d : String)
    (h : d ∈ collectDigests m) : d ∈ refDigests m := by
  unfold collectDigests at h
  unfold refDigests
  rcases List.mem_append.mp h with h1 | h1
  · by_cases hc : startsSha m.config.digest
    · rw [if_pos hc] at h1
      rcases List.mem_singleton.mp h1 with rfl
      exact List.mem_cons_self _ _
    · rw [if_neg hc] at h1
      simp at h1
  · rcases List.mem_map.mp h1 with ⟨l, hl, rfl⟩
    exact List.mem_cons_of_mem _ (List.mem_map_of_mem _ (List.mem_filter.mp hl).1)

/-- The layer-import loop never reports `blobMissingInArchive` for a digest
without the `sha256:` tag: the failing filename always comes from a
sha-prefixed layer. -/
theorem importLayers_blobMissing_sha (temp : FileMap)
    (cb : Option (Nat → Bool)) (ls : List Layer) (store s : FileMap)
    (k : Nat) (fn : String)
    (h : importLayers temp cb ls store k = .inl (.blobMissingInArchive fn, s)) :
    ∃ l ∈ ls, startsSha l.digest = true ∧ fn = digestFilename l.digest := by
  cases cb with
  | none =>
    induction ls generalizing store k with
    | nil => simp [importLayers] at h
    | cons l ls ih =>
      by_cases hsha : startsSha l.digest
      · cases hc : alGet temp (digestFilename l.digest) with
        | none =>
          rw [importLayers] at h
          simp only [hsha, if_true, hc, Sum.inl.injEq, Prod.mk.injEq,
            ImOutcome.blobMissingInArchive.injEq] at h
          exact ⟨l, List.mem_cons_self _ _, hsha, h.1.symm⟩
        | some c =>
          rw [importLayers] at h
          simp only [hsha, if_true, hc] at h
          rcases ih _ _ h with ⟨l1, hl1, h1, h2⟩
          exact ⟨l1, List.mem_cons_of_mem _ hl1, h1, h2⟩
      · rw [importLayers] at h
        simp only [hsha, Bool.false_eq_true, if_false] at h
        rcases ih _ _ h with ⟨l1, hl1, h1, h2⟩
        exact ⟨l1, List.mem_cons_of_mem _ hl1, h1, h2⟩
  | some f =>
    induction ls generalizing store k with
    | nil => simp [importLayers] at h
    | cons l ls ih =>
      by_cases hsha : startsSha l.digest
      · cases hc : alGet temp (digestFilename l.digest) with
        | none =>
          rw [importLayers] at h
          simp only [hsha, if_true, hc, Sum.inl.injEq, Prod.mk.injEq,
            ImOutcome.blobMissingInArchive.injEq] at h
          exact ⟨l, List.mem_cons_self _ _, hsha, h.1.symm⟩
        | some c =>
          rw [importLayers] at h
          simp only [hsha, if_true, hc] at h
          by_cases hf : f k
          · simp only [hf, if_true] at h
            rcases ih _ _ h with ⟨l1, hl1, h1, h2⟩
            exact ⟨l1, List.mem_cons_of_mem _ hl1, h1, h2⟩
          · simp [hf] at h
      · rw [importLayers] at h
        simp only [hsha, Bool.false_eq_true, if_false] at h
        rcases ih _ _ h with ⟨l1, hl1, h1, h2⟩
        exact ⟨l1, List.mem_cons_of_mem _ hl1, h1, h2⟩

/-- The blobs-directory file map coming out of the layer-import loop. -/
def ilStore : Sum (ImOutcome × FileMap) (FileMap × Nat) → FileMap
  | .inl (_, s) => s
  | .inr (s, _) => s

/-- The layer-import loop touches the blobs directory only at the filenames
of sha-prefixed layer digests. -/
theorem importLayers_keys (temp : FileMap) (cb : Option (Nat → Bool))
    (ls : List Layer) (store : FileMap) (k : Nat) (key : String)
    (hkey : ∀ l ∈ ls, startsSha l.digest = true →
      key ≠ digestFilename l.digest) :
    alGet (ilStore (importLayers temp cb ls store k)) key = alGet store key := by
  cases cb with
  | none =>
    induction ls generalizing store k with
    | nil => simp [importLayers, ilStore]
    | cons l ls ih =>
      have htail : ∀ l1 ∈ ls, startsSha l1.digest = true →
          key ≠ digestFilename l1.digest :=
        fun l1 hl1 => hkey l1 (List.mem_cons_of_mem _ hl1)
      by_cases hsha : startsSha l.digest
      · have hne : key ≠ digestFilename l.digest :=
          hkey l (List.mem_cons_self _ _) hsha
        cases hc : alGet temp (digestFilename l.digest) with
        | none =>
          rw [importLayers]
          simp only [hsha, if_true, hc, ilStore]
        | some c =>
          rw [importLayers]
          simp only [hsha, if_true, hc]
          rw [ih _ _ htail, alGet_alSet_ne _ _ _ _ hne]
      · rw [importLayers]
        simp only [hsha, Bool.false_eq_true, if_false]
        exact ih _ _ htail
  | some f =>
    induction ls generalizing store k with
    | nil => simp [importLayers, ilStore]
    | cons l ls ih =>
      have htail : ∀ l1 ∈ ls, startsSha l1.digest = true →
          key ≠ digestFilename l1.digest :=
        fun l1 hl1 => hkey l1 (List.mem_cons_of_mem _ hl1)
      by_cases hsha : startsSha l.digest
      · have hne : key ≠ digestFilename l.digest :=
          hkey l (List.mem_cons_self _ _) hsha
        cases hc : alGet temp (digestFilename l.digest) with
        | none =>
          rw [importLayers]
          simp only [hsha, if_true, hc, ilStore]
        | some c =>
          rw [importLayers]
          simp only [hsha, if_true, hc]
          by_cases hf : f k
          · simp only [hf, if_true]
            rw [ih _ _ htail, alGet_alSet_ne _ _ _ _ hne]
          · simp only [hf, Bool.false_eq_true, if_false, ilStore]
      · rw [importLayers]
        simp only [hsha, Bool.false_eq_true, if_false]
        exact ih _ _ htail

/-- Without a callback the blob-deletion loop completes, removing only (some
of) the listed filenames: every other key keeps its binding. -/
theorem deleteBlobs_none_inr (fns : List String) (store : FileMap) (k : Nat) :
    ∃ s, deleteBlobs none fns store k = .inr (s, k) ∧
      ∀ key, key ∉ fns → alGet s key = alGet store key := by
  induction fns generalizing store with
  | nil => exact ⟨store, rfl, fun _ _ => rfl⟩
  | cons fn fns ih =>
    rw [deleteBlobs]
    cases hc : alGet store fn with
    | none =>
      rcases ih store with ⟨s, hs, hkeys⟩
      exact ⟨s, hs, fun key hkey =>
        hkeys key fun hmem => hkey (List.mem_cons_of_mem _ hmem)⟩
    | some c =>
      rcases ih (alErase store fn) with ⟨s, hs, hkeys⟩
      refine ⟨s, hs, fun key hkey => ?_⟩
      have h1 : key ∉ fns := fun hmem => hkey (List.mem_cons_of_mem _ hmem)
      have h2 : key ≠ fn := fun he => hkey (he ▸ List.mem_cons_self _ _)
      rw [hkeys key h1, alGet_alErase_ne _ _ _ h2]

/-- A key whose binding changed across the config-copy step and the
layer-import loop is the filename of a sha-prefixed referenced digest. -/
theorem import_store_key (temp store1 store : FileMap) (mI : Manifest)
    (k : Nat) (s2 : FileMap) (key : String)
    (hil : ilStore (importLayers temp none mI.layers store1 k) = s2)
    (hst : ∀ key2, alGet store1 key2 ≠ alGet store key2 →
      ∃ d ∈ refDigests mI, startsSha d = true ∧ key2 = digestFilename d)
    (hk : alGet s2 key ≠ alGet store key) :
    ∃ d ∈ refDigests mI, startsSha d = true ∧ key = digestFilename d := by
  by_cases hkl : ∀ l ∈ mI.layers, startsSha l.digest = true →
      key ≠ digestFilename l.digest
  · have he := importLayers_keys temp none mI.layers store1 k key hkl
    rw [hil] at he
    by_cases h1 : alGet store1 key = alGet store key
    · exact absurd (he.trans h1) hk
    · exact hst key h1
  · push_neg at hkl
    rcases hkl with ⟨l, hl, hsha, hkey⟩
    exact ⟨l.digest,
      List.mem_cons_of_mem _ (List.mem_map_of_mem _ hl), hsha, hkey⟩

/-- Without a callback, an import whose archive holds a parseable manifest
either leaves the blobs directory untouched (the early-exit paths) or runs
the config-copy step and the layer loop over it; a `blobMissingInArchive`
outcome can only come out of the layer loop. -/
theorem importModel_none_inv (members : List (String × Content))
    (stem : String) (custom : Option String) (lib : Library)
    (store : FileMap) (mcI : Content) (mI : Manifest)
    (hman : alGet (alSetAll [] members) "manifest" = some mcI)
    (hpI : parseManifest mcI = some mI) :
    (importModel members stem custom lib store none).store = store ∧
      (∀ fn, (importModel members stem custom lib store none).out ≠
        .blobMissingInArchive fn) ∨
    ∃ store1 k,
      (∀ key2, alGet store1 key2 ≠ alGet store key2 →
        ∃ d ∈ refDigests mI, startsSha d = true ∧
          key2 = digestFilename d) ∧
      ((∃ o s2,
          importLayers (alSetAll [] members) none mI.layers store1 k =
            .inl (o, s2) ∧
          (importModel members stem custom lib store none).out = o ∧
          (importModel members stem custom lib store none).store = s2) ∨
       (∃ s2 k5,
          importLayers (alSetAll [] members) none mI.layers store1 k =
            .inr (s2, k5) ∧
          (importModel members stem custom lib store none).out = .ok ∧
          (importModel members stem custom lib store none).store = s2)) := by
  cases hmd : alGet (alSetAll [] members) "metadata.json" with
  | none =>
    cases halib : alGet lib (determineDest none none custom stem).1 with
    | none =>
      cases hsha : startsSha mI.config.digest with
      | false =>
        cases hil : importLayers (alSetAll [] members) none mI.layers store 0 with
        | inl p =>
          obtain ⟨o, s2⟩ := p
          simp only [importModel, hman, hpI, hmd, halib, hsha,
            Bool.false_eq_true, if_false, hil]
          exact Or.inr ⟨store, 0, fun key2 h2 => absurd rfl h2,
            Or.inl ⟨o, s2, hil, rfl, rfl⟩⟩
        | inr p =>
          obtain ⟨s2, k5⟩ := p
          simp only [importModel, hman, hpI, hmd, halib, hsha,
            Bool.false_eq_true, if_false, hil]
          exact Or.inr ⟨store, 0, fun key2 h2 => absurd rfl h2,
            Or.inr ⟨s2, k5, hil, trivial, rfl⟩⟩
      | true =>
        cases hcf : alGet (alSetAll [] members)
            (digestFilename mI.config.digest) with
        | none =>
          cases hil : importLayers (alSetAll [] members) none mI.layers
              store 0 with
          | inl p =>
            obtain ⟨o, s2⟩ := p
            simp only [importModel, hman, hpI, hmd, halib, hsha, if_true,
              hcf, hil]
            exact Or.inr ⟨store, 0, fun key2 h2 => absurd rfl h2,
              Or.inl ⟨o, s2, hil, rfl, rfl⟩⟩
          | inr p =>
            obtain ⟨s2, k5⟩ := p
            simp only [importModel, hman, hpI, hmd, halib, hsha, if_true,
              hcf, hil]
            exact Or.inr ⟨store, 0, fun key2 h2 => absurd rfl h2,
              Or.inr ⟨s2, k5, hil, trivial, rfl⟩⟩
        | some c2 =>
          cases hil : importLayers (alSetAll [] members) none mI.layers
              (alSet store (digestFilename mI.config.digest) c2) 0 with
          | inl p =>
            obtain ⟨o, s2⟩ := p
            simp only [importModel, hman, hpI, hmd, halib, hsha, if_true,
              hcf, hil]
            refine Or.inr ⟨alSet store (digestFilename mI.config.digest) c2,
              0, ?_, Or.inl ⟨o, s2, hil, rfl, rfl⟩⟩
            intro key2 h2
            by_cases he : key2 = digestFilename mI.config.digest
            · exact ⟨mI.config.digest, List.mem_cons_self _ _, hsha, he⟩
            · exact absurd (alGet_alSet_ne _ _ _ _ he) h2
          | inr p =>
            obtain ⟨s2, k5⟩ := p
            simp only [importModel, hman, hpI, hmd, halib, hsha, if_true,
              hcf, hil]
            refine Or.inr ⟨alSet store (digestFilename mI.config.digest) c2,
              0, ?_, Or.inr ⟨s2, k5, hil, trivial, rfl⟩⟩
            intro key2 h2
            by_cases he : key2 = digestFilename mI.config.digest
            · exact ⟨mI.config.digest, List.mem_cons_self _ _, hsha, he⟩
            · exact absurd (alGet_alSet_ne _ _ _ _ he) h2
    | some e =>
      cases e with
      | file c1 =>
        simp only [importModel, hman, hpI, hmd, halib]
        first
          | trivial
          | exact Or.inl (by simp)
      | dir md0 =>
      cases hsha : startsSha mI.config.digest with
      | false =>
        cases hil : importLayers (alSetAll [] members) none mI.layers store 0 with
        | inl p =>
          obtain ⟨o, s2⟩ := p
          simp only [importModel, hman, hpI, hmd, halib, hsha,
            Bool.false_eq_true, if_false, hil]
          exact Or.inr ⟨store, 0, fun key2 h2 => absurd rfl h2,
            Or.inl ⟨o, s2, hil, rfl, rfl⟩⟩
        | inr p =>
          obtain ⟨s2, k5⟩ := p
          simp only [importModel, hman, hpI, hmd, halib, hsha,
            Bool.false_eq_true, if_false, hil]
          exact Or.inr ⟨store, 0, fun key2 h2 => absurd rfl h2,
            Or.inr ⟨s2, k5, hil, trivial, rfl⟩⟩
      | true =>
        cases hcf : alGet (alSetAll [] members)
            (digestFilename mI.config.digest) with
        | none =>
          cases hil : importLayers (alSetAll [] members) none mI.layers
              store 0 with
          | inl p =>
            obtain ⟨o, s2⟩ := p
            simp only [importModel, hman, hpI, hmd, halib, hsha, if_true,
              hcf, hil]
            exact Or.inr ⟨store, 0, fun key2 h2 => absurd rfl h2,
              Or.inl ⟨o, s2, hil, rfl, rfl⟩⟩
          | inr p =>
            obtain ⟨s2, k5⟩ := p
            simp only [importModel, hman, hpI, hmd, halib, hsha, if_true,
              hcf, hil]
            exact Or.inr ⟨store, 0, fun key2 h2 => absurd rfl h2,
              Or.inr ⟨s2, k5, hil, trivial, rfl⟩⟩
        | some c2 =>
          cases hil : importLayers (alSetAll [] members) none mI.layers
              (alSet store (digestFilename mI.config.digest) c2) 0 with
          | inl p =>
            obtain ⟨o, s2⟩ := p
            simp only [importModel, hman, hpI, hmd, halib, hsha, if_true,
              hcf, hil]
            refine Or.inr ⟨alSet store (digestFilename mI.config.digest) c2,
              0, ?_, Or.inl ⟨o, s2, hil, rfl, rfl⟩⟩
            intro key2 h2
            by_cases he : key2 = digestFilename mI.config.digest
            · exact ⟨mI.config.digest, List.mem_cons_self _ _, hsha, he⟩
            · exact absurd (alGet_alSet_ne _ _ _ _ he) h2
          | inr p =>
            obtain ⟨s2, k5⟩ := p
            simp only [importModel, hman, hpI, hmd, halib, hsha, if_true,
              hcf, hil]
            refine Or.inr ⟨alSet store (digestFilename mI.config.digest) c2,
              0, ?_, Or.inr ⟨s2, k5, hil, trivial, rfl⟩⟩
            intro key2 h2
            by_cases he : key2 = digestFilename mI.config.digest
            · exact ⟨mI.config.digest, List.mem_cons_self _ _, hsha, he⟩
            · exact absurd (alGet_alSet_ne _ _ _ _ he) h2
  | some c0 =>
    cases hpm : parseMeta c0 with
    | none =>
      simp only [importModel, hman, hpI, hmd, hpm]
      first
        | trivial
        | exact Or.inl (by simp)
    | some nt =>
      obtain ⟨n0, t0⟩ := nt
      cases halib : alGet lib (determineDest n0 t0 custom stem).1 with
      | none =>
        cases hsha : startsSha mI.config.digest with
        | false =>
          cases hil : importLayers (alSetAll [] members) none mI.layers store 0 with
          | inl p =>
            obtain ⟨o, s2⟩ := p
            simp only [importModel, hman, hpI, hmd, hpm, halib, hsha,
              Bool.false_eq_true, if_false, hil]
            exact Or.inr ⟨store, 0, fun key2 h2 => absurd rfl h2,
              Or.inl ⟨o, s2, hil, rfl, rfl⟩⟩
          | inr p =>
            obtain ⟨s2, k5⟩ := p
            simp only [importModel, hman, hpI, hmd, hpm, halib, hsha,
              Bool.false_eq_true, if_false, hil]
            exact Or.inr ⟨store, 0, fun key2 h2 => absurd rfl h2,
              Or.inr ⟨s2, k5, hil, trivial, rfl⟩⟩
        | true =>
          cases hcf : alGet (alSetAll [] members)
              (digestFilename mI.config.digest) with
          | none =>
            cases hil : importLayers (alSetAll [] members) none mI.layers
                store 0 with
            | inl p =>
              obtain ⟨o, s2⟩ := p
              simp only [importModel, hman, hpI, hmd, hpm, halib, hsha, if_true,
                hcf, hil]
              exact Or.inr ⟨store, 0, fun key2 h2 => absurd rfl h2,
                Or.inl ⟨o, s2, hil, rfl, rfl⟩⟩
            | inr p =>
              obtain ⟨s2, k5⟩ := p
              simp only [importModel, hman, hpI, hmd, hpm, halib, hsha, if_true,
                hcf, hil]
              exact Or.inr ⟨store, 0, fun key2 h2 => absurd rfl h2,
                Or.inr ⟨s2, k5, hil, trivial, rfl⟩⟩
          | some c2 =>
            cases hil : importLayers (alSetAll [] members) none mI.layers
                (alSet store (digestFilename mI.config.digest) c2) 0 with
            | inl p =>
              obtain ⟨o, s2⟩ := p
              simp only [importModel, hman, hpI, hmd, hpm, halib, hsha, if_true,
                hcf, hil]
              refine Or.inr ⟨alSet store (digestFilename mI.config.digest) c2,
                0, ?_, Or.inl ⟨o, s2, hil, rfl, rfl⟩⟩
              intro key2 h2
              by_cases he : key2 = digestFilename mI.config.digest
              · exact ⟨mI.config.digest, List.mem_cons_self _ _, hsha, he⟩
              · exact absurd (alGet_alSet_ne _ _ _ _ he) h2
            | inr p =>
              obtain ⟨s2, k5⟩ := p
              simp only [importModel, hman, hpI, hmd, hpm, halib, hsha, if_true,
                hcf, hil]
              refine Or.inr ⟨alSet store (digestFilename mI.config.digest) c2,
                0, ?_, Or.inr ⟨s2, k5, hil, trivial, rfl⟩⟩
              intro key2 h2
              by_cases he : key2 = digestFilename mI.config.digest
              · exact ⟨mI.config.digest, List.mem_cons_self _ _, hsha, he⟩
              · exact absurd (alGet_alSet_ne _ _ _ _ he) h2
      | some e =>
        cases e with
        | file c1 =>
          simp only [importModel, hman, hpI, hmd, hpm, halib]
          first
          | trivial
          | exact Or.inl (by simp)
        | dir md0 =>
        cases hsha : startsSha mI.config.digest with
        | false =>
          cases hil : importLayers (alSetAll [] members) none mI.layers store 0 with
          | inl p =>
            obtain ⟨o, s2⟩ := p
            simp only [importModel, hman, hpI, hmd, hpm, halib, hsha,
              Bool.false_eq_true, if_false, hil]
            exact Or.inr ⟨store, 0, fun key2 h2 => absurd rfl h2,
              Or.inl ⟨o, s2, hil, rfl, rfl⟩⟩
          | inr p =>
            obtain ⟨s2, k5⟩ := p
            simp only [importModel, hman, hpI, hmd, hpm, halib, hsha,
              Bool.false_eq_true, if_false, hil]
            exact Or.inr ⟨store, 0, fun key2 h2 => absurd rfl h2,
              Or.inr ⟨s2, k5, hil, trivial, rfl⟩⟩
        | true =>
          cases hcf : alGet (alSetAll [] members)
              (digestFilename mI.config.digest) with
          | none =>
            cases hil : importLayers (alSetAll [] members) none mI.layers
                store 0 with
            | inl p =>
              obtain ⟨o, s2⟩ := p
              simp only [importModel, hman, hpI, hmd, hpm, halib, hsha, if_true,
                hcf, hil]
              exact Or.inr ⟨store, 0, fun key2 h2 => absurd rfl h2,
                Or.inl ⟨o, s2, hil, rfl, rfl⟩⟩
            | inr p =>
              obtain ⟨s2, k5⟩ := p
              simp only [importModel, hman, hpI, hmd, hpm, halib, hsha, if_true,
                hcf, hil]
              exact Or.inr ⟨store, 0, fun key2 h2 => absurd rfl h2,
                Or.inr ⟨s2, k5, hil, trivial, rfl⟩⟩
          | some c2 =>
            cases hil : importLayers (alSetAll [] members) none mI.layers
                (alSet store (digestFilename mI.config.digest) c2) 0 with
            | inl p =>
              obtain ⟨o, s2⟩ := p
              simp only [importModel, hman, hpI, hmd, hpm, halib, hsha, if_true,
                hcf, hil]
              refine Or.inr ⟨alSet store (digestFilename mI.config.digest) c2,
                0, ?_, Or.inl ⟨o, s2, hil, rfl, rfl⟩⟩
              intro key2 h2
              by_cases he : key2 = digestFilename mI.config.digest
              · exact ⟨mI.config.digest, List.mem_cons_self _ _, hsha, he⟩
              · exact absurd (alGet_alSet_ne _ _ _ _ he) h2
            | inr p =>
              obtain ⟨s2, k5⟩ := p
              simp only [importModel, hman, hpI, hmd, hpm, halib, hsha, if_true,
                hcf, hil]
              refine Or.inr ⟨alSet store (digestFilename mI.config.digest) c2,
                0, ?_, Or.inr ⟨s2, k5, hil, trivial, rfl⟩⟩
              intro key2 h2
              by_cases he : key2 = digestFilename mI.config.digest
              · exact ⟨mI.config.digest, List.mem_cons_self _ _, hsha, he⟩
              · exact absurd (alGet_alSet_ne _ _ _ _ he) h2
  

/-- The two digest-facing guarantees of a callback-free import: a
`blobMissingInArchive` failure always names a sha-prefixed layer digest, and
every blobs-directory change happens at the filename of a sha-prefixed
referenced digest. -/
theorem importModel_digests (members : List (String × Content))
    (stem : String) (custom : Option String) (lib : Library)
    (store : FileMap) (mcI : Content) (mI : Manifest)
    (hman : alGet (alSetAll [] members) "manifest" = some mcI)
    (hpI : parseManifest mcI = some mI) :
    (∀ fn, (importModel members stem custom lib store none).out =
        .blobMissingInArchive fn →
      ∃ l ∈ mI.layers, startsSha l.digest = true ∧
        fn = digestFilename l.digest) ∧
    (∀ key, alGet (importModel members stem custom lib store none).store key ≠
        alGet store key →
      ∃ d ∈ refDigests mI, startsSha d = true ∧ key = digestFilename d) := by
  rcases importModel_none_inv members stem custom lib store mcI mI hman hpI
    with ⟨hs, ho⟩ |
      ⟨store1, k, hst, ⟨o, s2, hil, hout, hsto⟩ | ⟨s2, k5, hil, hout, hsto⟩⟩
  · refine ⟨fun fn hfn => absurd hfn (ho fn), fun key hk => ?_⟩
    rw [hs] at hk
    exact absurd rfl hk
  · constructor
    · intro fn hfn
      have ho2 : o = .blobMissingInArchive fn := hout.symm.trans hfn
      rw [ho2] at hil
      exact importLayers_blobMissing_sha _ _ _ _ _ _ _ hil
    · intro key hk
      rw [hsto] at hk
      exact import_store_key (alSetAll [] members) store1 store mI k s2 key
        (by rw [hil]; rfl) hst hk
  · constructor
    · intro fn hfn
      exact absurd (hout.symm.trans hfn) (by simp)
    · intro key hk
      rw [hsto] at hk
      exact import_store_key (alSetAll [] members) store1 store mI k s2 key
        (by rw [hil]; rfl) hst hk

/-- A callback-free delete of a present, parseable variant succeeds, and
every blobs-directory change happens at the filename of one of the
manifest's collected (all sha-prefixed) digests. -/
theorem deleteModel_none_inv (mn pt : String) (lib : Library)
    (store : FileMap) (md : ModelDir) (c : Content) (m : Manifest)
    (hlib : alGet lib mn = some (.dir md))
    (hmd : alGet md pt = some (.file c))
    (hpm : parseManifest c = some m) :
    (deleteModel mn pt lib store none).out = .ok ∧
    ∀ key, alGet (deleteModel mn pt lib store none).store key ≠
        alGet store key →
      ∃ d ∈ collectDigests m, startsSha d = true ∧
        key = digestFilename d := by
  rcases deleteBlobs_none_inr ((collectDigests m).map digestFilename) store 0
    with ⟨s, hs, hkeys⟩
  have hkey2 : ∀ key, alGet s key ≠ alGet store key →
      ∃ d ∈ collectDigests m, startsSha d = true ∧
        key = digestFilename d := by
    intro key hk
    by_cases hmem : key ∈ (collectDigests m).map digestFilename
    · rcases List.mem_map.mp hmem with ⟨d, hd, rfl⟩
      exact ⟨d, hd, collectDigests_sha m d hd, rfl⟩
    · exact absurd (hkeys key hmem) hk
  cases hEmp : (alErase md pt).isEmpty with
  | true =>
    have hres : deleteModel mn pt lib store none =
        { out := .ok, lib := alErase lib mn, store := s } := by
      simp only [deleteModel, hlib, hmd, hpm, hs, hEmp, if_true]
    rw [hres]
    exact ⟨rfl, hkey2⟩
  | false =>
    have hres : deleteModel mn pt lib store none =
        { out := .ok, lib := alSet lib mn (.dir (alErase md pt)),
          store := s } := by
      simp only [deleteModel, hlib, hmd, hpm, hs, hEmp, Bool.false_eq_true,
        if_false]
    rw [hres]
    exact ⟨rfl, hkey2⟩

/-- C9: any referenced digest without the `sha256:` prefix is silently
skipped by all three state-changing operations (export lines 157-208, import
lines 362-409, delete lines 444-456): an export failure only ever names a
sha-prefixed layer digest and a successful archive holds, besides
`metadata.json` and the manifest, only blobs of sha-prefixed referenced
digests; an import failure only ever names a sha-prefixed layer digest and
the blobs directory changes only at filenames of sha-prefixed referenced
digests; a delete of a present parseable variant succeeds outright and
removes blobs only at filenames of its sha-prefixed collected digests. -/
theorem C9_nonsha_skipped
    (mc : Content) (m : Manifest) (mn pt : String) (store : FileMap)
    (members : List (String × Content)) (stem : String)
    (custom : Option String) (lib : Library) (istore : FileMap)
    (mcI : Content) (mI : Manifest)
    (dmn dpt : String) (dlib : Library) (dstore : FileMap) (dmd : ModelDir)
    (dc : Content) (dm : Manifest)
    (hp : parseManifest mc = some m)
    (hman : alGet (alSetAll [] members) "manifest" = some mcI)
    (hpI : parseManifest mcI = some mI)
    (hdlib : alGet dlib dmn = some (.dir dmd))
    (hdmd : alGet dmd dpt = some (.file dc))
    (hdm : parseManifest dc = some dm) :
    (∀ fn, (exportModel mc mn pt store none true).out = .blobMissing fn →
      ∃ l ∈ m.layers, startsSha l.digest = true ∧
        fn = digestFilename l.digest) ∧
    (∀ entries, (exportModel mc mn pt store none true).output = some entries →
      ∀ kv ∈ entries, kv.1 = "metadata.json" ∨ kv.1 = "manifest" ∨
        ∃ d ∈ refDigests m, startsSha d = true ∧ kv.1 = digestFilename d) ∧
    (∀ fn, (importModel members stem custom lib istore none).out =
        .blobMissingInArchive fn →
      ∃ l ∈ mI.layers, startsSha l.digest = true ∧
        fn = digestFilename l.digest) ∧
    (∀ key, alGet (importModel members stem custom lib istore none).store key ≠
        alGet istore key →
      ∃ d ∈ refDigests mI, startsSha d = true ∧ key = digestFilename d) ∧
    (deleteModel dmn dpt dlib dstore none).out = .ok ∧
    (∀ key, alGet (deleteModel dmn dpt dlib dstore none).store key ≠
        alGet dstore key →
      ∃ d ∈ collectDigests dm, startsSha d = true ∧
        key = digestFilename d) := by
  have hexp : (∀ fn,
      (exportModel mc mn pt store none true).out = .blobMissing fn →
      ∃ l ∈ m.layers, startsSha l.digest = true ∧
        fn = digestFilename l.digest) ∧
      (∀ entries,
        (exportModel mc mn pt store none true).output = some entries →
        ∀ kv ∈ entries, kv.1 = "metadata.json" ∨ kv.1 = "manifest" ∨
          ∃ d ∈ refDigests m, startsSha d = true ∧
            kv.1 = digestFilename d) := by
    cases hfm : firstMissingSha store m.layers with
    | some fn0 =>
      have hres := exportModel_none_fail mc m mn pt store fn0 true hp hfm
      rw [hres]
      constructor
      · intro fn hfn
        simp only [ExOutcome.blobMissing.injEq] at hfn
        rcases firstMissingSha_mem store m.layers fn0 hfm
          with ⟨l, hl, hsha, heq, -⟩
        exact ⟨l, hl, hsha, hfn ▸ heq⟩
      · intro entries he
        exact absurd he (by simp)
    | none =>
      have hall := (firstMissingSha_eq_none_iff store m.layers).mp hfm
      have hres := exportModel_none_ok mc m mn pt store hp hall
      rw [hres]
      constructor
      · intro fn hfn
        exact absurd hfn (by simp)
      · intro entries he
        have he2 : entries = archiveEntries mc mn pt store m :=
          (Option.some_injective _ he).symm
        subst he2
        intro kv hkv
        unfold archiveEntries at hkv
        rcases List.mem_cons.mp hkv with rfl | hkv
        · exact Or.inl rfl
        rcases List.mem_cons.mp hkv with rfl | hkv
        · exact Or.inr (Or.inl rfl)
        rcases List.mem_map.mp hkv with ⟨fn1, hfn1, rfl⟩
        rcases List.mem_append.mp hfn1 with h1 | h1
        · rcases mem_shaNames _ _ h1 with ⟨l, hl, hsha, rfl⟩
          exact Or.inr (Or.inr ⟨l.digest,
            List.mem_cons_of_mem _ (List.mem_map_of_mem _ hl), hsha, rfl⟩)
        · rcases mem_configNames _ _ _ h1 with ⟨hsha, rfl⟩
          exact Or.inr (Or.inr ⟨m.config.digest,
            List.mem_cons_self _ _, hsha, rfl⟩)
  have himp := importModel_digests members stem custom lib istore mcI mI
    hman hpI
  have hdel := deleteModel_none_inv dmn dpt dlib dstore dmd dc dm
    hdlib hdmd hdm
  exact ⟨hexp.1, hexp.2, himp.1, himp.2, hdel.1, hdel.2⟩

def c9M : Manifest :=
  { config := { digest := "sha256:cc", size := 4 },
    layers := [{ digest := "sha256:aa", size := 8 },
               { digest := "md5:zz", size := 3 }] }

def c9Mc : Content := Content.manifestJson c9M

def c9Store : FileMap :=
  [("sha256-aa", Content.bytes [1]), ("sha256-cc", Content.bytes [2])]

def c9MI : Manifest :=
  { config := { digest := "", size := 0 },
    layers := [{ digest := "sha256:aa", size := 8 },
               { digest := "md5:zz", size := 3 }] }

def c9McI : Content := Content.manifestJson c9MI

def c9Members : List (String × Content) :=
  [("metadata.json", Content.metaJson (some "alpha") (some "7b")),
   ("manifest", c9McI), ("sha256-aa", Content.bytes [1])]

def c9DM : Manifest :=
  { config := { digest := "md5:qq", size := 0 },
    layers := [{ digest := "sha256:aa", size := 8 }] }

def c9Dc : Content := Content.manifestJson c9DM

def c9Dmd : ModelDir := [("13b", TagEntry.file c9Dc)]

def c9Dlib : Library := [("beta", LibEntry.dir c9Dmd)]

def c9Dstore : FileMap := [("sha256-aa", Content.bytes [3])]

/-- Witness for C9: at manifests that reference both `sha256:`-prefixed and
`md5:`-prefixed digests, the export, import and delete guarantees hold. -/
theorem C9_nonsha_skipped_witness :
    (∀ fn, (exportModel c9Mc "alpha" "7b" c9Store none true).out =
        .blobMissing fn →
      ∃ l ∈ c9M.layers, startsSha l.digest = true ∧
        fn = digestFilename l.digest) ∧
    (∀ entries,
      (exportModel c9Mc "alpha" "7b" c9Store none true).output =
        some entries →
      ∀ kv ∈ entries, kv.1 = "metadata.json" ∨ kv.1 = "manifest" ∨
        ∃ d ∈ refDigests c9M, startsSha d = true ∧
          kv.1 = digestFilename d) ∧
    (∀ fn, (importModel c9Members "beta-13b" none [] [] none).out =
        .blobMissingInArchive fn →
      ∃ l ∈ c9MI.layers, startsSha l.digest = true ∧
        fn = digestFilename l.digest) ∧
    (∀ key, alGet (importModel c9Members "beta-13b" none [] [] none).store
        key ≠ alGet ([] : FileMap) key →
      ∃ d ∈ refDigests c9MI, startsSha d = true ∧
        key = digestFilename d) ∧
    (deleteModel "beta" "13b" c9Dlib c9Dstore none).out = .ok ∧
    (∀ key, alGet (deleteModel "beta" "13b" c9Dlib c9Dstore none).store key ≠
        alGet c9Dstore key →
      ∃ d ∈ collectDigests c9DM, startsSha d = true ∧
        key = digestFilename d) :=
  C9_nonsha_skipped c9Mc c9M "alpha" "7b" c9Store c9Members "beta-13b" none
    [] [] c9McI c9MI "beta" "13b" c9Dlib c9Dstore c9Dmd c9Dc c9DM
    (by decide) (by decide) (by decide) (by decide) (by decide) (by decide)

/-! ### Claim C10: the BlobMissing path keeps the temp directory -/

theorem stagedUntilMissing_keys (store : FileMap) (ls : List Layer)
    (p : String × Content) (hp : p ∈ stagedUntilMissing store ls) :
    ∃ l ∈ ls, startsSha l.digest = true ∧ p.1 = digestFilename l.digest := by
  induction ls with
  | nil => simp [stagedUntilMissing] at hp
  | cons l ls ih =>
    rw [stagedUntilMissing] at hp
    by_cases hsha : startsSha l.digest
    · rw [if_pos hsha] at hp
      cases hc : alGet store (digestFilename l.digest) with
      | none => rw [hc] at hp; simp at hp
      | some c =>
        rw [hc] at hp
        rcases List.mem_cons.mp hp with rfl | hp
        · exact ⟨l, List.mem_cons_self _ _, hsha, rfl⟩
        · rcases ih hp with ⟨l1, hl1, h1, h2⟩
          exact ⟨l1, List.mem_cons_of_mem _ hl1, h1, h2⟩
    · rw [if_neg hsha] at hp
      rcases ih hp with ⟨l1, hl1, h1, h2⟩
      exact ⟨l1, List.mem_cons_of_mem _ hl1, h1, h2⟩

/-- Along the layer loop a `blobMissing` exit hands back the temp directory
as it stood, and the loop only ever adds blob files (sha-prefixed names), so
`metadata.json` and the manifest copy are still inside. -/
theorem copyLayers_blobMissing_temp (store : FileMap)
    (cb : Option (Nat → Bool)) (total : Nat) (ls : List Layer) (st : ExSt)
    (mMeta mc : Content)
    (hmeta : alGet st.temp "metadata.json" = some mMeta)
    (hman : alGet st.temp "manifest" = some mc)
    (r : ExportResult) (fn : String)
    (h : copyLayers store cb total ls st = .inl r)
    (ho : r.out = .blobMissing fn) :
    ∃ t, r.temp = some t ∧ alGet t "metadata.json" = some mMeta ∧
      alGet t "manifest" = some mc := by
  cases cb with
  | none =>
    induction ls generalizing st with
    | nil => simp [copyLayers] at h
    | cons l ls ih =>
      rw [copyLayers] at h
      by_cases hsha : startsSha l.digest
      · simp only [hsha, if_true] at h
        cases hc : alGet store (digestFilename l.digest) with
        | none =>
          simp only [hc] at h
          rcases (Sum.inl.injEq .. ▸ h : _ = r) with rfl
          exact ⟨st.temp, rfl, hmeta, hman⟩
        | some c =>
          simp only [hc] at h
          refine ih _ ?_ ?_ h
          · rw [alGet_alSet_ne _ _ _ _
              (fun he => digestFilename_ne_metadata l.digest hsha he.symm),
              hmeta]
          · rw [alGet_alSet_ne _ _ _ _
              (fun he => digestFilename_ne_manifest l.digest hsha he.symm),
              hman]
      · simp only [hsha, Bool.false_eq_true, if_false] at h
        exact ih _ hmeta hman h
  | some f =>
    induction ls generalizing st with
    | nil => simp [copyLayers] at h
    | cons l ls ih =>
      rw [copyLayers] at h
      by_cases hsha : startsSha l.digest
      · simp only [hsha, if_true] at h
        cases hc : alGet store (digestFilename l.digest) with
        | none =>
          simp only [hc] at h
          rcases (Sum.inl.injEq .. ▸ h : _ = r) with rfl
          exact ⟨st.temp, rfl, hmeta, hman⟩
        | some c =>
          simp only [hc] at h
          have hmeta2 : alGet (alSet st.temp (digestFilename l.digest) c)
              "metadata.json" = some mMeta := by
            rw [alGet_alSet_ne _ _ _ _
              (fun he => digestFilename_ne_metadata l.digest hsha he.symm),
              hmeta]
          have hman2 : alGet (alSet st.temp (digestFilename l.digest) c)
              "manifest" = some mc := by
            rw [alGet_alSet_ne _ _ _ _
              (fun he => digestFilename_ne_manifest l.digest hsha he.symm),
              hman]
          by_cases htot : total = 0
          · simp only [htot, if_true] at h
            rcases (Sum.inl.injEq .. ▸ h : _ = r) with rfl
            exact absurd ho (by simp)
          · simp only [htot, if_false] at h
            by_cases hf0 : f st.k
            · simp only [hf0, if_true] at h
              by_cases hf1 : f (st.k + 1)
              · simp only [hf1, if_true] at h
                exact ih _ hmeta2 hman2 h
              · simp only [hf1, Bool.false_eq_true, if_false] at h
                rcases (Sum.inl.injEq .. ▸ h : _ = r) with rfl
                exact absurd ho (by simp)
            · simp only [hf0, Bool.false_eq_true, if_false] at h
              rcases (Sum.inl.injEq .. ▸ h : _ = r) with rfl
              exact absurd ho (by simp)
      · simp only [hsha, Bool.false_eq_true, if_false] at h
        exact ih _ hmeta hman h

/-- The config step's early exits are `crash` or `cancelled`, never
`blobMissing`. -/
theorem copyConfig_inl_out (store : FileMap) (cb : Option (Nat → Bool))
    (total : Nat) (cfg : ConfigRef) (st : ExSt) (r : ExportResult)
    (h : copyConfig store cb total cfg st = .inl r) :
    r.out = .crash ∨ r.out = .cancelled := by
  cases cb with
  | none =>
    rw [copyConfig] at h
    by_cases hsha : startsSha cfg.digest
    · simp only [hsha, if_true] at h
      cases hc : alGet store (digestFilename cfg.digest) with
      | none => simp [hc] at h
      | some c => simp [hc] at h
    · simp [hsha] at h
  | some f =>
    rw [copyConfig] at h
    by_cases hsha : startsSha cfg.digest
    · simp only [hsha, if_true] at h
      cases hc : alGet store (digestFilename cfg.digest) with
      | none => simp [hc] at h
      | some c =>
        simp only [hc] at h
        by_cases htot : total = 0
        · simp only [htot, if_true] at h
          rcases (Sum.inl.injEq .. ▸ h : _ = r) with rfl
          exact Or.inl rfl
        · simp only [htot, if_false] at h
          by_cases hf0 : f st.k
          · simp only [hf0, if_true] at h
            by_cases hf1 : f (st.k + 1)
            · simp only [hf1, if_true] at h
              exact Sum.noConfusion h
            · simp only [hf1, Bool.false_eq_true, if_false] at h
              rcases (Sum.inl.injEq .. ▸ h : _ = r) with rfl
              exact Or.inr rfl
          · simp only [hf0, Bool.false_eq_true, if_false] at h
            rcases (Sum.inl.injEq .. ▸ h : _ = r) with rfl
            exact Or.inr rfl
    · simp [hsha] at h

/-- The layer loop's early exits are `crash`, `cancelled` or `blobMissing`,
never `ioError`. -/
theorem copyLayers_inl_out (store : FileMap) (cb : Option (Nat → Bool))
    (total : Nat) (ls : List Layer) (st : ExSt) (r : ExportResult)
    (h : copyLayers store cb total ls st = .inl r) :
    r.out = .crash ∨ r.out = .cancelled ∨ ∃ fn, r.out = .blobMissing fn := by
  cases cb with
  | none =>
    induction ls generalizing st with
    | nil => simp [copyLayers] at h
    | cons l ls ih =>
      rw [copyLayers] at h
      by_cases hsha : startsSha l.digest
      · simp only [hsha, if_true] at h
        cases hc : alGet store (digestFilename l.digest) with
        | none =>
          simp only [hc] at h
          rcases (Sum.inl.injEq .. ▸ h : _ = r) with rfl
          exact Or.inr (Or.inr ⟨digestFilename l.digest, rfl⟩)
        | some c =>
          simp only [hc] at h
          exact ih _ h
      · simp only [hsha, Bool.false_eq_true, if_false] at h
        exact ih _ h
  | some f =>
    induction ls generalizing st with
    | nil => simp [copyLayers] at h
    | cons l ls ih =>
      rw [copyLayers] at h
      by_cases hsha : startsSha l.digest
      · simp only [hsha, if_true] at h
        cases hc : alGet store (digestFilename l.digest) with
        | none =>
          simp only [hc] at h
          rcases (Sum.inl.injEq .. ▸ h : _ = r) with rfl
          exact Or.inr (Or.inr ⟨digestFilename l.digest, rfl⟩)
        | some c =>
          simp only [hc] at h
          by_cases htot : total = 0
          · simp only [htot, if_true] at h
            rcases (Sum.inl.injEq .. ▸ h : _ = r) with rfl
            exact Or.inl rfl
          · simp only [htot, if_false] at h
            by_cases hf0 : f st.k
            · simp only [hf0, if_true] at h
              by_cases hf1 : f (st.k + 1)
              · simp only [hf1, if_true] at h
                exact ih _ h
              · simp only [hf1, Bool.false_eq_true, if_false] at h
                rcases (Sum.inl.injEq .. ▸ h : _ = r) with rfl
                exact Or.inr (Or.inl rfl)
            · simp only [hf0, Bool.false_eq_true, if_false] at h
              rcases (Sum.inl.injEq .. ▸ h : _ = r) with rfl
              exact Or.inr (Or.inl rfl)
      · simp only [hsha, Bool.false_eq_true, if_false] at h
        exact ih _ h

/-- The archiving loop's only early exit is a cancellation. -/
theorem addFiles_inl_out (cb : Option (Nat → Bool)) (temp : FileMap)
    (fns : List String) (acc : List (String × Content)) (k : Nat)
    (tr : List ExCheck) (r : ExportResult)
    (h : addFiles cb temp fns acc k tr = .inl r) : r.out = .cancelled := by
  cases cb with
  | none =>
    induction fns generalizing acc k tr with
    | nil => simp [addFiles] at h
    | cons fn fns ih =>
      rw [addFiles] at h
      exact ih _ _ _ h
  | some f =>
    induction fns generalizing acc k tr with
    | nil => simp [addFiles] at h
    | cons fn fns ih =>
      rw [addFiles] at h
      by_cases hf : f k
      · simp only [hf, if_true] at h
        exact ih _ _ _ h
      · simp only [hf, Bool.false_eq_true, if_false] at h
        rcases (Sum.inl.injEq .. ▸ h : _ = r) with rfl
        rfl

/-- Without a callback and with every layer blob present, injecting the tar
failure turns the run into an `ioError` with the temp directory removed. -/
theorem exportModel_none_noTar (mc : Content) (m : Manifest) (mn pt : String)
    (store : FileMap) (hp : parseManifest mc = some m)
    (hall : allShaPresent store m.layers) :
    exportModel mc mn pt store none false =
      { out := .ioError, temp := none, output := none, trace := [] } := by
  unfold exportModel
  rw [hp]
  simp only [copyLayers_none_ok store (totalSize m) m.layers _ hall,
    copyConfig_none, Bool.false_eq_true, if_false]

/-- Every `ioError` exit of `export_model` has removed the temp directory. -/
theorem exportModel_ioError_temp (mc : Content) (mn pt : String)
    (store : FileMap) (cb : Option (Nat → Bool)) (tarOk : Bool)
    (h : (exportModel mc mn pt store cb tarOk).out = .ioError) :
    (exportModel mc mn pt store cb tarOk).temp = none := by
  cases hp : parseManifest mc with
  | none => simp only [exportModel, hp]
  | some m =>
    cases h1 : copyLayers store cb (totalSize m) m.layers
        { temp := alSet (alSet [] "metadata.json"
            (Content.metaJson (some mn) (some pt))) "manifest" mc,
          blobFiles := [], current := 0, k := 0, trace := [] } with
    | inl r =>
      have hres : exportModel mc mn pt store cb tarOk = r := by
        simp only [exportModel, hp, h1]
      rw [hres] at h ⊢
      rcases copyLayers_inl_out store cb (totalSize m) m.layers _ r h1 with
        h2 | h2 | ⟨fn, h2⟩ <;> exact absurd (h2.symm.trans h) (by simp)
    | inr st1 =>
      cases h2 : copyConfig store cb (totalSize m) m.config st1 with
      | inl r =>
        have hres : exportModel mc mn pt store cb tarOk = r := by
          simp only [exportModel, hp, h1, h2]
        rw [hres] at h ⊢
        rcases copyConfig_inl_out store cb (totalSize m) m.config st1 r h2
          with h3 | h3 <;> exact absurd (h3.symm.trans h) (by simp)
      | inr st2 =>
        cases cb with
        | none =>
          cases tarOk with
          | false =>
            simp only [exportModel, hp, h1, h2, Bool.false_eq_true, if_false]
          | true =>
            cases h3 : addFiles none st2.temp st2.blobFiles
                [("metadata.json",
                   (alGet st2.temp "metadata.json").getD (Content.bytes [])),
                 ("manifest",
                   (alGet st2.temp "manifest").getD (Content.bytes []))]
                st2.k st2.trace with
            | inl r =>
              have hres : exportModel mc mn pt store none true = r := by
                simp only [exportModel, hp, h1, h2, if_true, h3]
              rw [hres] at h
              exact absurd
                ((addFiles_inl_out none st2.temp st2.blobFiles _ _ _ r
                  h3).symm.trans h) (by simp)
            | inr trip =>
              obtain ⟨entries, k4, tr4⟩ := trip
              have hres : exportModel mc mn pt store none true =
                  { out := .ok, temp := none, output := some entries,
                    trace := tr4 } := by
                simp only [exportModel, hp, h1, h2, if_true, h3]
              rw [hres] at h
              exact absurd h (by simp)
        | some f =>
          by_cases hf2 : f st2.k
          · cases tarOk with
            | false =>
              simp only [exportModel, hp, h1, h2, hf2, if_true,
                Bool.false_eq_true, if_false]
            | true =>
              cases h3 : addFiles (some f) st2.temp st2.blobFiles
                  [("metadata.json",
                     (alGet st2.temp "metadata.json").getD (Content.bytes [])),
                   ("manifest",
                     (alGet st2.temp "manifest").getD (Content.bytes []))]
                  (st2.k + 1) (st2.trace ++ [ExCheck.creatingArchive]) with
              | inl r =>
                have hres : exportModel mc mn pt store (some f) true = r := by
                  simp only [exportModel, hp, h1, h2, hf2, if_true, h3]
                rw [hres] at h
                exact absurd
                  ((addFiles_inl_out (some f) st2.temp st2.blobFiles _ _ _ r
                    h3).symm.trans h) (by simp)
              | inr trip =>
                obtain ⟨entries, k4, tr4⟩ := trip
                have hres : exportModel mc mn pt store (some f) true =
                    { out := .ok, temp := none, output := some entries,
                      trace := tr4 ++ [ExCheck.complete] } := by
                  simp only [exportModel, hp, h1, h2, hf2, if_true, h3]
                rw [hres] at h
                exact absurd h (by simp)
          · have hres : exportModel mc mn pt store (some f) tarOk =
                { out := .cancelled, temp := none, output := none,
                  trace := st2.trace ++ [ExCheck.creatingArchive] } := by
              simp only [exportModel, hp, h1, h2, hf2, Bool.false_eq_true,
                if_false]
            rw [hres] at h
            exact absurd h (by simp)

/-- C10: when export fails with `BlobMissing` because a layer blob is absent
(lines 157-184), the ephemeral working directory is left on disk — still
holding `metadata.json`, the manifest copy, and (in the callback-free run,
exactly) the blobs staged before the failure — unlike the cancellation and
IOFailure paths, which remove it before returning. -/
theorem C10_blobMissing_keeps_temp (mc : Content) (m : Manifest)
    (mn pt : String) (store : FileMap) (tarOk : Bool) (f : Nat → Bool)
    (cb : Option (Nat → Bool)) (hp : parseManifest mc = some m) :
    (∀ cb2 fn, (exportModel mc mn pt store cb2 tarOk).out = .blobMissing fn →
      ∃ t, (exportModel mc mn pt store cb2 tarOk).temp = some t ∧
        alGet t "metadata.json" =
          some (Content.metaJson (some mn) (some pt)) ∧
        alGet t "manifest" = some mc) ∧
    (∀ fn, (exportModel mc mn pt store none tarOk).out = .blobMissing fn →
      (exportModel mc mn pt store none tarOk).temp =
        some (alSetAll (exportTemp0 mc mn pt)
          (stagedUntilMissing store m.layers))) ∧
    ((exportModel mc mn pt store (some f) tarOk).out = .cancelled →
      (exportModel mc mn pt store (some f) tarOk).temp = none) ∧
    ((exportModel mc mn pt store cb tarOk).out = .ioError →
      (exportModel mc mn pt store cb tarOk).temp = none) := by
  refine ⟨?_, ?_, ?_, exportModel_ioError_temp mc mn pt store cb tarOk⟩
  · intro cb2 fn hfn
    cases h1 : copyLayers store cb2 (totalSize m) m.layers
        { temp := alSet (alSet [] "metadata.json"
            (Content.metaJson (some mn) (some pt))) "manifest" mc,
          blobFiles := [], current := 0, k := 0, trace := [] } with
    | inl r =>
      have hres : exportModel mc mn pt store cb2 tarOk = r := by
        simp only [exportModel, hp, h1]
      rw [hres] at hfn ⊢
      refine copyLayers_blobMissing_temp store cb2 (totalSize m) m.layers _
        (Content.metaJson (some mn) (some pt)) mc ?_ ?_ r fn h1 hfn
      · rw [alGet_alSet_ne _ _ _ _ (by decide), alGet_alSet_same]
      · rw [alGet_alSet_same]
    | inr st1 =>
      cases h2 : copyConfig store cb2 (totalSize m) m.config st1 with
      | inl r =>
        have hres : exportModel mc mn pt store cb2 tarOk = r := by
          simp only [exportModel, hp, h1, h2]
        rw [hres] at hfn
        rcases copyConfig_inl_out store cb2 (totalSize m) m.config st1 r h2
          with h3 | h3 <;> exact absurd (h3.symm.trans hfn) (by simp)
      | inr st2 =>
        cases cb2 with
        | none =>
          cases tarOk with
          | false =>
            have hres : exportModel mc mn pt store none false =
                { out := .ioError, temp := none, output := none,
                  trace := st2.trace } := by
              simp only [exportModel, hp, h1, h2, Bool.false_eq_true,
                if_false]
            rw [hres] at hfn
            exact absurd hfn (by simp)
          | true =>
            cases h3 : addFiles none st2.temp st2.blobFiles
                [("metadata.json",
                   (alGet st2.temp "metadata.json").getD (Content.bytes [])),
                 ("manifest",
                   (alGet st2.temp "manifest").getD (Content.bytes []))]
                st2.k st2.trace with
            | inl r =>
              have hres : exportModel mc mn pt store none true = r := by
                simp only [exportModel, hp, h1, h2, if_true, h3]
              rw [hres] at hfn
              exact absurd
                ((addFiles_inl_out none st2.temp st2.blobFiles _ _ _ r
                  h3).symm.trans hfn) (by simp)
            | inr trip =>
              obtain ⟨entries, k4, tr4⟩ := trip
              have hres : exportModel mc mn pt store none true =
                  { out := .ok, temp := none, output := some entries,
                    trace := tr4 } := by
                simp only [exportModel, hp, h1, h2, if_true, h3]
              rw [hres] at hfn
              exact absurd hfn (by simp)
        | some f2 =>
          by_cases hf2 : f2 st2.k
          · cases tarOk with
            | false =>
              have hres : exportModel mc mn pt store (some f2) false =
                  { out := .ioError, temp := none, output := none,
                    trace := st2.trace ++ [ExCheck.creatingArchive] } := by
                simp only [exportModel, hp, h1, h2, hf2, if_true,
                  Bool.false_eq_true, if_false]
              rw [hres] at hfn
              exact absurd hfn (by simp)
            | true =>
              cases h3 : addFiles (some f2) st2.temp st2.blobFiles
                  [("metadata.json",
                     (alGet st2.temp "metadata.json").getD (Content.bytes [])),
                   ("manifest",
                     (alGet st2.temp "manifest").getD (Content.bytes []))]
                  (st2.k + 1) (st2.trace ++ [ExCheck.creatingArchive]) with
              | inl r =>
                have hres : exportModel mc mn pt store (some f2) true = r := by
                  simp only [exportModel, hp, h1, h2, hf2, if_true, h3]
                rw [hres] at hfn
                exact absurd
                  ((addFiles_inl_out (some f2) st2.temp st2.blobFiles _ _ _ r
                    h3).symm.trans hfn) (by simp)
              | inr trip =>
                obtain ⟨entries, k4, tr4⟩ := trip
                have hres : exportModel mc mn pt store (some f2) true =
                    { out := .ok, temp := none, output := some entries,
                      trace := tr4 ++ [ExCheck.complete] } := by
                  simp only [exportModel, hp, h1, h2, hf2, if_true, h3]
                rw [hres] at hfn
                exact absurd hfn (by simp)
          · have hres : exportModel mc mn pt store (some f2) tarOk =
                { out := .cancelled, temp := none, output := none,
                  trace := st2.trace ++ [ExCheck.creatingArchive] } := by
              simp only [exportModel, hp, h1, h2, hf2, Bool.false_eq_true,
                if_false]
            rw [hres] at hfn
            exact absurd hfn (by simp)
  · intro fn hfn
    cases hfm : firstMissingSha store m.layers with
    | some fn0 =>
      have hres := exportModel_none_fail mc m mn pt store fn0 tarOk hp hfm
      rw [hres]
    | none =>
      have hall := (firstMissingSha_eq_none_iff store m.layers).mp hfm
      cases tarOk with
      | true =>
        rw [exportModel_none_ok mc m mn pt store hp hall] at hfn
        exact absurd hfn (by simp)
      | false =>
        rw [exportModel_none_noTar mc m mn pt store hp hall] at hfn
        exact absurd hfn (by simp)
  · intro hc
    exact ((exportModel_some_inv mc mn pt store f tarOk).1 hc).1

def c10M : Manifest :=
  { config := { digest := "", size := 0 },
    layers := [{ digest := "sha256:aa", size := 8 }] }

def c10Mc : Content := Content.manifestJson c10M

/-- Witness for C10: a one-layer manifest whose blob is absent from an empty
blobs directory. -/
theorem C10_blobMissing_keeps_temp_witness :
    (∀ cb2 fn, (exportModel c10Mc "alpha" "7b" [] cb2 true).out =
        .blobMissing fn →
      ∃ t, (exportModel c10Mc "alpha" "7b" [] cb2 true).temp = some t ∧
        alGet t "metadata.json" =
          some (Content.metaJson (some "alpha") (some "7b")) ∧
        alGet t "manifest" = some c10Mc) ∧
    (∀ fn, (exportModel c10Mc "alpha" "7b" [] none true).out =
        .blobMissing fn →
      (exportModel c10Mc "alpha" "7b" [] none true).temp =
        some (alSetAll (exportTemp0 c10Mc "alpha" "7b")
          (stagedUntilMissing [] c10M.layers))) ∧
    ((exportModel c10Mc "alpha" "7b" [] (some fun _ => false) true).out =
        .cancelled →
      (exportModel c10Mc "alpha" "7b" [] (some fun _ => false) true).temp =
        none) ∧
    ((exportModel c10Mc "alpha" "7b" [] none true).out = .ioError →
      (exportModel c10Mc "alpha" "7b" [] none true).temp = none) :=
  C10_blobMissing_keeps_temp c10Mc c10M "alpha" "7b" [] true
    (fun _ => false) none (by decide)
